import Mathlib

/-!
# Verification of the `dev_server.py` SPA development server

A shallow embedding of `src/dev_server.py` together with the parts of the
Python standard library it delegates to (`urllib.parse.urlparse` /
`urlsplit`, `http.server.SimpleHTTPRequestHandler.translate_path`,
`send_head`, `do_GET`, `do_HEAD`, `BaseHTTPRequestHandler.send_error`,
`posixpath.normpath`, `posixpath.join`, `int()`), specialised to the way
the handler invokes them.

Modelling conventions:

* Python `str` values are modelled as `List Char`.  Percent-decoding
  (`urllib.parse.unquote`) is modelled byte-wise: each `%XX` escape decodes
  to the character with code `XX`.  (CPython additionally groups
  consecutive decoded bytes and decodes them as UTF-8 with
  `errors='surrogatepass'`; multi-byte sequences are therefore represented
  here byte-by-byte.  No claim depends on non-ASCII request paths.)
* The filesystem seen by one request is an abstract total map from path
  strings to entries (`FS`).  The network, logging (`print` calls), wall
  clock, the `mimetypes` table, and the HTML bodies of generated error /
  directory-listing pages are environment data and appear as parameters of
  the context `Ctx`.
* A handler method that raises an uncaught exception (e.g. `ValueError`
  from `urlsplit` on a malformed bracketed netloc) produces no HTTP
  response; this is modelled by `Option`: `none` means the method raised.
* Requests are modelled by their request target (the string CPython stores
  in `self.path`).  Conditional request headers (`If-Modified-Since`) are
  not modelled, so the `304 Not Modified` branch of `send_head` is absent.
-/

/-- Python `str` values (paths, URLs, header values) as lists of characters. -/
abbrev Str := List Char

/-- The characters `str.rstrip()` removes (the ASCII part of Python's
whitespace set; non-ASCII whitespace is outside the modelled alphabet). -/
def pyIsSpace (c : Char) : Bool :=
  c = ' ' ∨ c = '\t' ∨ c = '\n' ∨ c = '\r' ∨ c = '\x0b' ∨ c = '\x0c'

/-- Python `s.rstrip()`: remove trailing whitespace. -/
def rstrip (s : Str) : Str :=
  (s.reverse.dropWhile pyIsSpace).reverse

/-- Value of an ASCII hex digit, as used by `urllib.parse.unquote`. -/
def hexVal (c : Char) : Option Nat :=
  if '0' ≤ c ∧ c ≤ '9' then some (c.toNat - '0'.toNat)
  else if 'a' ≤ c ∧ c ≤ 'f' then some (c.toNat - 'a'.toNat + 10)
  else if 'A' ≤ c ∧ c ≤ 'F' then some (c.toNat - 'A'.toNat + 10)
  else none

/-- `urllib.parse.unquote`: decode `%XX` escapes; an invalid escape is kept
literally.  (Byte-wise model of the decoding, see the module comment.) -/
def unquote : Str → Str
  | [] => []
  | '%' :: a :: b :: rest =>
    match hexVal a, hexVal b with
    | some x, some y => Char.ofNat (16 * x + y) :: unquote rest
    | _, _ => '%' :: unquote (a :: b :: rest)
  | '%' :: rest => '%' :: unquote rest
  | c :: rest => c :: unquote rest

/-- `path.split('/')` (full split, keeping empty pieces). -/
def splitOnSlash : Str → List Str
  | [] => [[]]
  | '/' :: rest => [] :: splitOnSlash rest
  | c :: rest =>
    match splitOnSlash rest with
    | s :: ss => (c :: s) :: ss
    | [] => [[c]]

/-- `'/'.join(comps)`. -/
def joinSlash : List Str → Str
  | [] => []
  | [w] => w
  | w :: ws => w ++ '/' :: joinSlash ws

/-- The string `"."` (`os.curdir`). -/
def dotStr : Str := ['.']

/-- The string `".."` (`os.pardir`). -/
def dotdotStr : Str := ['.', '.']

/-- The number of initial slashes `posixpath.normpath` preserves:
POSIX allows one or two initial slashes; three or more count as one. -/
def initialSlashes (p : Str) : Nat :=
  if ('/' :: '/' :: '/' :: []).isPrefixOf p then 1
  else if ('/' :: '/' :: []).isPrefixOf p then 2
  else if ('/' :: []).isPrefixOf p then 1
  else 0

/-- One step of `posixpath.normpath`'s component loop: skip `''` and `'.'`,
append a normal component, let a leading `..` of a relative path or a `..`
after another `..` through, and otherwise pop the previous component. -/
def normStep (hasInit : Bool) (acc : List Str) (comp : Str) : List Str :=
  if comp = [] ∨ comp = dotStr then acc
  else if comp ≠ dotdotStr ∨ (¬hasInit ∧ acc = []) ∨ acc.getLast? = some dotdotStr then
    acc ++ [comp]
  else if acc ≠ [] then acc.dropLast
  else acc

/-- The component list `posixpath.normpath` computes. -/
def normComps (hasInit : Bool) (comps : List Str) : List Str :=
  comps.foldl (normStep hasInit) []

/-- `posixpath.normpath`. -/
def posixpath_normpath (p : Str) : Str :=
  if p = [] then dotStr
  else
    let sl := initialSlashes p
    let comps := normComps (decide (sl ≠ 0)) (splitOnSlash p)
    let out := List.replicate sl '/' ++ joinSlash comps
    if out = [] then dotStr else out

/-- `posixpath.join` for two components. -/
def os_path_join (a b : Str) : Str :=
  if b.head? = some '/' then b
  else if a = [] ∨ a.getLast? = some '/' then a ++ b
  else a ++ '/' :: b

/-- The string `"index.html"`. -/
def indexHtmlStr : Str := ['i', 'n', 'd', 'e', 'x', '.', 'h', 't', 'm', 'l']

/-- The string `"index.htm"`. -/
def indexHtmStr : Str := ['i', 'n', 'd', 'e', 'x', '.', 'h', 't', 'm']

/-- `SimpleHTTPRequestHandler.translate_path` (with `self.directory = root`):
drop query and fragment, remember a trailing slash, percent-decode,
normalise, and rebuild the path below `root` from the components that are
plain names (`os.path.dirname(word)` is truthy exactly when `word` contains
a slash, so that test is written as a slash test here). -/
def translate_path (root : Str) (path0 : Str) : Str :=
  let path1 := path0.takeWhile (fun c => c ≠ '?')
  let path2 := path1.takeWhile (fun c => c ≠ '#')
  let trailing := (rstrip path2).getLast? = some '/'
  let path3 := unquote path2
  let path4 := posixpath_normpath path3
  let words0 := (splitOnSlash path4).filter (fun w => ¬ w = [])
  let words1 := words0.filter (fun w => ¬ w.contains '/' ∧ w ≠ dotStr ∧ w ≠ dotdotStr)
  let path5 := words1.foldl os_path_join root
  if trailing then path5 ++ ['/'] else path5

/-- Convert a Lean string literal to the `Str` representation. -/
def strOf (s : String) : Str := s.data

/-- `string.ascii_letters` membership test for one character. -/
def isAsciiAlpha (c : Char) : Bool :=
  decide (('a' ≤ c ∧ c ≤ 'z') ∨ ('A' ≤ c ∧ c ≤ 'Z'))

/-- Membership in `urllib.parse.scheme_chars` (ASCII letters, digits, `+-.`). -/
def isSchemeChar (c : Char) : Bool :=
  decide (('a' ≤ c ∧ c ≤ 'z') ∨ ('A' ≤ c ∧ c ≤ 'Z') ∨ ('0' ≤ c ∧ c ≤ '9') ∨
    c = '+' ∨ c = '-' ∨ c = '.')

/-- The result record of `urllib.parse.urlsplit`. -/
structure SplitResult where
  scheme : Str
  netloc : Str
  path : Str
  query : Str
  fragment : Str
deriving DecidableEq

/-- The scheme-splitting step of `urlsplit`: a scheme is present when the
first `:` sits at a positive index, the first character is an ASCII letter
and everything before the `:` is a scheme character. -/
def splitScheme (url : Str) : Str × Str :=
  let pre := url.takeWhile (fun c => c ≠ ':')
  if url.contains ':' = true ∧ pre ≠ [] ∧ url.head?.map isAsciiAlpha = some true ∧
      (pre.drop 1).all isSchemeChar = true then
    (pre.map Char.toLower, url.drop (pre.length + 1))
  else ([], url)

/-- `_splitnetloc`'s delimiter set. -/
def netlocDelim (c : Char) : Bool := decide (c = '/' ∨ c = '?' ∨ c = '#')

/-- The removal of `_UNSAFE_URL_BYTES_TO_REMOVE` (tab, CR, LF) at the top
of `urlsplit`. -/
def removeUnsafeChars (url : Str) : Str :=
  url.filter (fun c => ¬(c = '\t' ∨ c = '\r' ∨ c = '\n'))

/-- The netloc `_splitnetloc` extracts (empty when the url does not start
with `//`). -/
def netlocOf (url2 : Str) : Str :=
  if ('/' :: '/' :: []).isPrefixOf url2 then
    (url2.drop 2).takeWhile (fun c => ¬ netlocDelim c = true)
  else []

/-- What remains of the url after `_splitnetloc`. -/
def restAfterNetloc (url2 : Str) : Str :=
  if ('/' :: '/' :: []).isPrefixOf url2 then
    (url2.drop 2).dropWhile (fun c => ¬ netlocDelim c = true)
  else url2

/-- `urllib.parse.urlsplit`.  `none` models a raised `ValueError`:
unbalanced square brackets in the netloc always raise; a bracketed host is
accepted only when it is a valid IPv6/IPvFuture literal and a non-ASCII
netloc only when it passes the NFKC check — neither validation is modelled,
so both cases are conservatively treated as raising.  (No theorem below
depends on a request target with a bracketed or non-ASCII netloc.) -/
def urlsplit (url0 : Str) : Option SplitResult :=
  let url1 := removeUnsafeChars url0
  let sch := splitScheme url1
  let netloc := netlocOf sch.2
  let url3 := restAfterNetloc sch.2
  if netloc.contains '[' = true ∨ netloc.contains ']' = true ∨
      netloc.any (fun c => decide (127 < c.toNat)) = true then
    none
  else
    let url4 := url3.takeWhile (fun c => c ≠ '#')
    let fragment := (url3.dropWhile (fun c => c ≠ '#')).drop 1
    let url5 := url4.takeWhile (fun c => c ≠ '?')
    let query := (url4.dropWhile (fun c => c ≠ '?')).drop 1
    some { scheme := sch.1, netloc := netloc, path := url5, query := query, fragment := fragment }

/-- `urllib.parse.urlunsplit`, used to build the `Location` value of the
base handler's directory redirect. -/
def urlunsplit (scheme netloc path query fragment : Str) : Str :=
  let url1 :=
    if netloc ≠ [] ∨ (path ≠ [] ∧ ('/' :: '/' :: []).isPrefixOf path) then
      '/' :: '/' :: netloc ++ (if path ≠ [] ∧ path.head? ≠ some '/' then '/' :: path else path)
    else path
  let url2 := if scheme ≠ [] then scheme ++ ':' :: url1 else url1
  let url3 := if query ≠ [] then url2 ++ '?' :: query else url2
  if fragment ≠ [] then url3 ++ '#' :: fragment else url3

/-- The last `/`-separated segment of a path. -/
def lastSlashSeg (p : Str) : Str := (p.reverse.takeWhile (fun c => c ≠ '/')).reverse

/-- `urllib.parse._splitparams` (the path part of its result): with a `/`
in the url, `;` is searched only from the last `/` on, i.e. in the last
segment; without one, from the start. -/
def splitparams_path (p : Str) : Str :=
  if p.contains '/' = true then
    let pre := (p.reverse.dropWhile (fun c => c ≠ '/')).reverse
    let seg := lastSlashSeg p
    if seg.contains ';' = true then pre ++ seg.takeWhile (fun c => c ≠ ';') else p
  else p.takeWhile (fun c => c ≠ ';')

/-- The `.path` component of `urllib.parse.urlparse`: `urlsplit`, then
parameters split off the last segment when the path contains a `;`. -/
def urlparse_path (url : Str) : Option Str :=
  match urlsplit url with
  | none => none
  | some r => some (if r.path.contains ';' = true then splitparams_path r.path else r.path)

/-- What `stat` finds at one filesystem path: a regular file (with content,
readability and mtime), a directory, something that exists but is neither
(FIFO, socket, device — `openResult` is what `open` + read yields on it,
`none` meaning `OSError`), or nothing. -/
inductive Entry
  | file (bytes : List Nat) (readable : Bool) (mtime : Nat)
  | dir
  | special (openResult : Option (List Nat × Nat))
  | absent
deriving DecidableEq

/-- The filesystem as seen during one request: a total map from path
strings to entries. -/
structure FS where
  stat : Str → Entry

/-- `os.path.exists`. -/
def FS.os_exists (fs : FS) (p : Str) : Bool := decide (fs.stat p ≠ Entry.absent)

/-- `os.path.isdir`. -/
def FS.os_isdir (fs : FS) (p : Str) : Bool := decide (fs.stat p = Entry.dir)

/-- `os.path.isfile`. -/
def FS.os_isfile (fs : FS) (p : Str) : Bool :=
  match fs.stat p with
  | .file _ _ _ => true
  | _ => false

/-- `open(p, 'rb')` followed by `fstat`/read: content and mtime on success,
`none` for any `OSError` (absent file, permission denied, `EISDIR`, ...). -/
def FS.openFile (fs : FS) (p : Str) : Option (List Nat × Nat) :=
  match fs.stat p with
  | .file b true m => some (b, m)
  | .file _ false _ => none
  | .dir => none
  | .special r => r
  | .absent => none

/-- Per-request context: the content root (`FRONTEND_DIR`), the filesystem,
and the environment-supplied renderings the stdlib handler uses (MIME
table, clock, error/listing page templates). -/
structure Ctx where
  root : Str
  fs : FS
  guessType : Str → Str
  fmtDate : Nat → Str
  serverHdr : Str
  dateHdr : Str
  errorPage : Nat → List Nat
  listingPage : Str → List Nat
  listingCtype : Str

/-- An HTTP response: status code, headers in send order, body bytes.
`srcPath` is a ghost field recording the filesystem path of the file object
`send_head` returned, when it opened one. -/
structure Response where
  status : Nat
  headers : List (Str × Str)
  body : List Nat
  srcPath : Option Str
deriving DecidableEq

/-- Decimal digit character. -/
def digitChar : Nat → Char
  | 0 => '0' | 1 => '1' | 2 => '2' | 3 => '3' | 4 => '4'
  | 5 => '5' | 6 => '6' | 7 => '7' | 8 => '8' | _ => '9'

/-- Fuelled decimal rendering (the fuel is an upper bound on the digit
count, keeping the recursion structural). -/
def natStrGo : Nat → Nat → Str
  | 0, _ => []
  | fuel + 1, n => if n < 10 then [digitChar n] else natStrGo fuel (n / 10) ++ [digitChar (n % 10)]

/-- `str(n)` for a natural number. -/
def natStr (n : Nat) : Str := natStrGo (n + 1) n

/-- The `Server:` and `Date:` headers `send_response` always emits. -/
def baseHeaders (ctx : Ctx) : List (Str × Str) :=
  [(strOf (r"Server"), ctx.serverHdr), (strOf (r"Date"), ctx.dateHdr)]

/-- `BaseHTTPRequestHandler.send_error`: an error status with `Connection`,
`Content-Type` and `Content-Length` headers; the HTML body is sent for GET
but suppressed for HEAD (the headers are computed either way). -/
def errorResponse (ctx : Ctx) (code : Nat) (headOnly : Bool) : Response :=
  let body := ctx.errorPage code
  { status := code
    headers := baseHeaders ctx ++
      [(strOf (r"Connection"), strOf (r"close")),
       (strOf (r"Content-Type"), strOf (r"text/html;charset=utf-8")),
       (strOf (r"Content-Length"), natStr body.length)]
    body := if headOnly then [] else body
    srcPath := none }

/-- The `301 Moved Permanently` directory redirect of `send_head`: the
`Location` value is the request url with a `/` appended to its path — the
query and fragment are preserved. -/
def redirectResponse (ctx : Ctx) (parts : SplitResult) : Response :=
  { status := 301
    headers := baseHeaders ctx ++
      [(strOf (r"Location"),
        urlunsplit parts.scheme parts.netloc (parts.path ++ ['/']) parts.query parts.fragment),
       (strOf (r"Content-Length"), strOf (r"0"))]
    body := []
    srcPath := none }

/-- `SimpleHTTPRequestHandler.list_directory`: a generated HTML listing
(content supplied by the environment parameter `listingPage`). -/
def listingResponse (ctx : Ctx) (path : Str) (headOnly : Bool) : Response :=
  let body := ctx.listingPage path
  { status := 200
    headers := baseHeaders ctx ++
      [(strOf (r"Content-Type"), ctx.listingCtype),
       (strOf (r"Content-Length"), natStr body.length)]
    body := if headOnly then [] else body
    srcPath := none }

/-- The tail of `send_head` once the path to serve is fixed: reject a path
with a trailing slash, try to `open` it (any `OSError` becomes a
`404 File not found`), and on success emit a `200` with `Content-type`,
`Content-Length` and `Last-Modified`.  The body is attached by `do_GET`'s
`copyfile` and omitted for HEAD. -/
def finishFile (ctx : Ctx) (path : Str) (headOnly : Bool) : Response :=
  if path.getLast? = some '/' then errorResponse ctx 404 headOnly
  else
    match ctx.fs.openFile path with
    | none => errorResponse ctx 404 headOnly
    | some (b, m) =>
      { status := 200
        headers := baseHeaders ctx ++
          [(strOf (r"Content-type"), ctx.guessType path),
           (strOf (r"Content-Length"), natStr b.length),
           (strOf (r"Last-Modified"), ctx.fmtDate m)]
        body := if headOnly then [] else b
        srcPath := some path }

/-- `SimpleHTTPRequestHandler.do_GET` / `do_HEAD` with `self.path =
selfPath` (`send_head` plus the body copy): translate the path; a directory
yields a redirect when the url path lacks a trailing slash, otherwise its
`index.html` / `index.htm` is served if a regular file, else a listing;
anything else is opened and served.  `none`: `urlsplit` raised. -/
def base_do (ctx : Ctx) (selfPath : Str) (headOnly : Bool) : Option Response :=
  let path := translate_path ctx.root selfPath
  if ctx.fs.os_isdir path = true then
    match urlsplit selfPath with
    | none => none
    | some parts =>
      if ¬ parts.path.getLast? = some '/' then some (redirectResponse ctx parts)
      else
        let idx1 := os_path_join path indexHtmlStr
        if ctx.fs.os_isfile idx1 = true then some (finishFile ctx idx1 headOnly)
        else
          let idx2 := os_path_join path indexHtmStr
          if ctx.fs.os_isfile idx2 = true then some (finishFile ctx idx2 headOnly)
          else some (listingResponse ctx path headOnly)
  else some (finishFile ctx path headOnly)

/-- The three response strategies of the resolver. -/
inductive Mode
  | directFile
  | directoryIndex
  | fallback
deriving DecidableEq

/-- The branch structure of `SPARequestHandler._serve_requested_path`:
serve directly whatever exists and is not a directory; serve a directory's
`index.html` when present; otherwise fall through. -/
def resolve_mode (fs : FS) (root : Str) (requestedPath : Str) : Mode :=
  let fsPath := translate_path root requestedPath
  if fs.os_exists fsPath = true ∧ ¬ fs.os_isdir fsPath = true then .directFile
  else if fs.os_isdir fsPath = true ∧
      fs.os_exists (os_path_join fsPath indexHtmlStr) = true then .directoryIndex
  else .fallback

/-- The rewritten `self.path` of the directory-index branch: the requested
path, given a trailing slash when it lacks one, plus `index.html`. -/
def mkIndexPath (requestedPath : Str) : Str :=
  (if requestedPath.getLast? = some '/' then requestedPath else requestedPath ++ ['/']) ++
    indexHtmlStr

/-- Result of `_serve_requested_path`: `served r` models `return True`
(after the base handler ran, `r = none` meaning it raised), `fallthrough`
models `return False`. -/
inductive ServeOutcome
  | served (r : Option Response)
  | fallthrough

/-- `SPARequestHandler._serve_requested_path`.  `none`: `urlparse` raised. -/
def serve_requested_path (ctx : Ctx) (target : Str) (headOnly : Bool) : Option ServeOutcome :=
  match urlparse_path target with
  | none => none
  | some requestedPath =>
    some (match resolve_mode ctx.fs ctx.root requestedPath with
      | .directFile => .served (base_do ctx target headOnly)
      | .directoryIndex => .served (base_do ctx (mkIndexPath requestedPath) headOnly)
      | .fallback => .fallthrough)

/-- `SPARequestHandler._serve_index`: rewrite `self.path` to `/index.html`
and delegate to the base handler. -/
def serve_index (ctx : Ctx) (headOnly : Bool) : Option Response :=
  base_do ctx (strOf (r"/index.html")) headOnly

/-- `SPARequestHandler.do_GET`: the response sent for a GET of `target`
(`none`: an exception escaped and no response was written). -/
def do_GET (ctx : Ctx) (target : Str) : Option Response :=
  match serve_requested_path ctx target false with
  | none => none
  | some (.served r) => r
  | some .fallthrough => serve_index ctx false

/-- `SPARequestHandler.do_HEAD`. -/
def do_HEAD (ctx : Ctx) (target : Str) : Option Response :=
  match serve_requested_path ctx target true with
  | none => none
  | some (.served r) => r
  | some .fallthrough => serve_index ctx true

/-- Decimal digit value of a character. -/
def digitVal (c : Char) : Option Nat :=
  if '0' ≤ c ∧ c ≤ '9' then some (c.toNat - '0'.toNat) else none

/-- Digit run of `int()`: decimal digits, single underscores only between
digits. -/
def digitsValGo (acc : Nat) : Str → Option Nat
  | [] => some acc
  | '_' :: c :: rest =>
    match digitVal c with
    | some v => digitsValGo (10 * acc + v) rest
    | none => none
  | '_' :: _ => none
  | c :: rest =>
    match digitVal c with
    | some v => digitsValGo (10 * acc + v) rest
    | none => none

/-- The digit part of `int()`: at least one digit, no leading underscore. -/
def digitsVal : Str → Option Nat
  | [] => none
  | c :: rest =>
    match digitVal c with
    | some v => digitsValGo v rest
    | none => none

/-- Python `int(s)` for a decimal string: strip whitespace, optional sign,
digits with underscores between them; `none` models `ValueError`.
(Non-ASCII decimal digits, accepted by CPython, are outside the model.) -/
def pyIntStr (s : Str) : Option Int :=
  let t := ((s.dropWhile pyIsSpace).reverse.dropWhile pyIsSpace).reverse
  match t with
  | '+' :: r => (digitsVal r).map Int.ofNat
  | '-' :: r => (digitsVal r).map (fun n => -(n : Int))
  | r => (digitsVal r).map Int.ofNat

/-- The module-level `HOST`/`PORT` configuration of `dev_server.py`. -/
structure ServerBootstrap where
  host : Str
  port : Int

/-- The environment variable name `DEV_SERVER_PORT`. -/
def devServerPortVar : Str := strOf (r"DEV_SERVER_PORT")

/-- The environment variable name `DEV_SERVER_HOST`. -/
def devServerHostVar : Str := strOf (r"DEV_SERVER_HOST")

/-- The module-level initialisation of `dev_server.py` (lines 13–15):
`HOST` and `PORT` are read from the environment at import time.  `none`
models the `ValueError` that `int()` raises then — the module body stops
before `run()` is ever called, so no socket is created or bound and no
request is served. -/
def module_init (env : Str → Option Str) : Option ServerBootstrap :=
  let host := (env devServerHostVar).getD (strOf (r"0.0.0.0"))
  match pyIntStr ((env devServerPortVar).getD (strOf (r"8080"))) with
  | none => none
  | some p => some { host := host, port := p }

/-- A word `translate_path` keeps: nonempty, slash-free, not `.` or `..`. -/
def goodWord (w : Str) : Prop :=
  w ≠ [] ∧ '/' ∉ w ∧ w ≠ dotStr ∧ w ≠ dotdotStr

/-- `q` lies within the content root `root`: it is `root` extended by plain
path components (no `..`, no `.`, no empty or slashed component), possibly
with a trailing slash. -/
def withinRoot (root q : Str) : Prop :=
  ∃ ws : List Str, (∀ w ∈ ws, goodWord w) ∧
    (q = ws.foldl os_path_join root ∨ q = ws.foldl os_path_join root ++ ['/'])

/-! ## Lemmas about the query/fragment stripping -/

/-- The common query/fragment stripping: both `translate_path` (which cuts
at `?` then `#`) and `urlsplit` (which cuts at `#` then `?`) keep exactly
the prefix before the first `?` or `#`. -/
def stripQF (s : Str) : Str :=
  (s.takeWhile (fun c => c ≠ '?')).takeWhile (fun c => c ≠ '#')

theorem stripQF_comm (s : Str) :
    (s.takeWhile (fun c => c ≠ '#')).takeWhile (fun c => c ≠ '?') = stripQF s := by
  unfold stripQF
  induction s with
  | nil => rfl
  | cons c t ih =>
    by_cases h1 : c = '?' <;> by_cases h2 : c = '#' <;>
      simp_all [List.takeWhile_cons]

theorem stripQF_no_qm (s : Str) : '?' ∉ stripQF s := by
  intro h
  have hm : '?' ∈ s.takeWhile (fun c => decide (c ≠ '?')) :=
    (List.takeWhile_prefix _).subset h
  have := List.mem_takeWhile_imp hm
  simp at this

theorem stripQF_no_hash (s : Str) : '#' ∉ stripQF s := by
  intro h
  have := List.mem_takeWhile_imp h
  simp at this

theorem stripQF_of_no_qf {s : Str} (hq : '?' ∉ s) (hh : '#' ∉ s) : stripQF s = s := by
  unfold stripQF
  have h1 : s.takeWhile (fun c => decide (c ≠ '?')) = s := by
    rw [List.takeWhile_eq_self_iff]
    intro x hx
    simp only [decide_eq_true_eq]
    exact fun e => hq (e ▸ hx)
  rw [h1, List.takeWhile_eq_self_iff]
  intro x hx
  simp only [decide_eq_true_eq]
  exact fun e => hh (e ▸ hx)

theorem stripQF_idem (s : Str) : stripQF (stripQF s) = stripQF s :=
  stripQF_of_no_qf (stripQF_no_qm s) (stripQF_no_hash s)

/-- `translate_path` only looks at the prefix before the first `?` or `#`. -/
theorem translate_path_stripQF (root s : Str) :
    translate_path root (stripQF s) = translate_path root s := by
  have h1 : (stripQF s).takeWhile (fun c => decide (c ≠ '?')) = stripQF s := by
    rw [List.takeWhile_eq_self_iff]
    intro x hx
    simp only [decide_eq_true_eq]
    exact fun e => stripQF_no_qm s (e ▸ hx)
  have h2 : (stripQF s).takeWhile (fun c => decide (c ≠ '#')) = stripQF s := by
    rw [List.takeWhile_eq_self_iff]
    intro x hx
    simp only [decide_eq_true_eq]
    exact fun e => stripQF_no_hash s (e ▸ hx)
  simp only [translate_path, h1, h2]
  rfl

/-! ## Lemmas about unquote -/
theorem unquote_pct_hex (a b : Char) (t : Str) (x y : Nat) (ha : hexVal a = some x)
    (hb : hexVal b = some y) :
    unquote ('%' :: a :: b :: t) = Char.ofNat (16 * x + y) :: unquote t := by
  simp [unquote, ha, hb]

theorem unquote_pct_nohex (a b : Char) (t : Str) (h : hexVal a = none ∨ hexVal b = none) :
    unquote ('%' :: a :: b :: t) = '%' :: unquote (a :: b :: t) := by
  rcases h with h | h
  · simp [unquote, h]
  · cases ha : hexVal a <;> simp [unquote, ha, h]

theorem unquote_pct_short (t : Str) (h : t.length ≤ 1) :
    unquote ('%' :: t) = '%' :: unquote t := by
  match t, h with
  | [], _ => rfl
  | [x], _ => rfl

theorem unquote_cons_ne (c : Char) (t : Str) (hc : c ≠ '%') :
    unquote (c :: t) = c :: unquote t := by
  rw [unquote.eq_def]
  split
  · simp_all
  · simp_all
  · simp_all
  · next c2 rest _ _ heq =>
    injection heq with h1 h2
    rw [← h1, ← h2]

theorem unquote_single (x : Char) : unquote [x] = [x] := by
  by_cases hx : x = '%'
  · subst hx; rfl
  · rw [unquote_cons_ne x [] hx]; rfl

theorem unquote_no_pct (s : Str) (h : '%' ∉ s) : unquote s = s := by
  induction s with
  | nil => rfl
  | cons c t ih =>
    have hc : c ≠ '%' := fun e => h (e ▸ List.mem_cons_self c t)
    rw [unquote_cons_ne c t hc, ih (fun hm => h (List.mem_cons_of_mem c hm))]

theorem unquote_cons_safe (x : Char) (b : Str)
    (hb1 : ∀ c, b.head? = some c → hexVal c = none) :
    unquote (x :: b) = x :: unquote b := by
  by_cases hx : x = '%'
  · subst hx
    cases b with
    | nil => rfl
    | cons c t =>
      have hc : hexVal c = none := hb1 c rfl
      cases t with
      | nil => exact unquote_pct_short [c] (by simp)
      | cons d t2 => exact unquote_pct_nohex c d t2 (Or.inl hc)
  · exact unquote_cons_ne x b hx

theorem unquote_append (b : Str) (hb1 : ∀ c, b.head? = some c → hexVal c = none) :
    ∀ a : Str, unquote (a ++ b) = unquote a ++ unquote b
  | [] => rfl
  | [x] => by
    by_cases hx : x = '%'
    · subst hx
      cases b with
      | nil => rfl
      | cons c t =>
        have hc : hexVal c = none := hb1 c rfl
        cases t with
        | nil =>
          show unquote ['%', c] = unquote ['%'] ++ unquote [c]
          rw [unquote_pct_short [c] (by simp), unquote_single c]
          rfl
        | cons d t2 =>
          show unquote ('%' :: c :: d :: t2) = unquote ['%'] ++ unquote (c :: d :: t2)
          rw [unquote_pct_nohex c d t2 (Or.inl hc)]
          rfl
    · rw [List.singleton_append, unquote_cons_ne x b hx, unquote_single x,
        List.singleton_append]
  | x :: y :: t => by
    by_cases hx : x = '%'
    · subst hx
      cases t with
      | nil =>
        cases b with
        | nil => simp [show unquote ([] : Str) = [] from rfl]
        | cons c t2 =>
          have hc : hexVal c = none := hb1 c rfl
          show unquote ('%' :: y :: c :: t2) = unquote ['%', y] ++ unquote (c :: t2)
          rw [unquote_pct_nohex y c t2 (Or.inr hc),
            unquote_cons_safe y (c :: t2) hb1,
            unquote_pct_short [y] (by simp), unquote_single y]
          rfl
      | cons z t2 =>
        show unquote ('%' :: y :: z :: (t2 ++ b)) = unquote ('%' :: y :: z :: t2) ++ unquote b
        cases hy : hexVal y with
        | some vy =>
          cases hz : hexVal z with
          | some vz =>
            rw [unquote_pct_hex y z (t2 ++ b) vy vz hy hz,
              unquote_pct_hex y z t2 vy vz hy hz,
              unquote_append b hb1 t2]
            rfl
          | none =>
            rw [unquote_pct_nohex y z (t2 ++ b) (Or.inr hz),
              unquote_pct_nohex y z t2 (Or.inr hz)]
            have := unquote_append b hb1 (y :: z :: t2)
            rw [List.cons_append, List.cons_append] at this
            rw [this]
            rfl
        | none =>
          rw [unquote_pct_nohex y z (t2 ++ b) (Or.inl hy),
            unquote_pct_nohex y z t2 (Or.inl hy)]
          have := unquote_append b hb1 (y :: z :: t2)
          rw [List.cons_append, List.cons_append] at this
          rw [this]
          rfl
    · rw [List.cons_append, unquote_cons_ne x _ hx, unquote_cons_ne x _ hx,
        unquote_append b hb1 (y :: t)]
      rfl
termination_by a => a.length
decreasing_by all_goals (simp; try omega)

/-! ## Lemmas about rstrip -/

theorem rstrip_concat_nonspace (t : Str) (c : Char) (hc : pyIsSpace c = false) :
    rstrip (t ++ [c]) = t ++ [c] := by
  unfold rstrip
  rw [List.reverse_append]
  simp [List.dropWhile_cons, hc]

theorem rstrip_of_getLast?_nonspace {s : Str} {c : Char} (h : s.getLast? = some c)
    (hc : pyIsSpace c = false) : rstrip s = s := by
  induction s using List.reverseRecOn with
  | nil => simp at h
  | append_singleton t a _ =>
    rw [List.getLast?_concat] at h
    obtain rfl : a = c := by injection h
    exact rstrip_concat_nonspace t _ hc

/-! ## Lemmas about splitOnSlash and joinSlash -/

theorem splitOnSlash_ne_nil (s : Str) : splitOnSlash s ≠ [] := by
  rw [splitOnSlash.eq_def]
  split
  · simp
  · simp
  · split <;> simp

theorem splitOnSlash_cons_slash (t : Str) : splitOnSlash ('/' :: t) = [] :: splitOnSlash t := rfl

theorem splitOnSlash_cons_ne (c : Char) (t : Str) (hc : c ≠ '/') :
    ∃ s ss, splitOnSlash t = s :: ss ∧ splitOnSlash (c :: t) = (c :: s) :: ss := by
  obtain ⟨s, ss, h⟩ : ∃ s ss, splitOnSlash t = s :: ss := by
    cases h : splitOnSlash t with
    | nil => exact absurd h (splitOnSlash_ne_nil t)
    | cons s ss => exact ⟨s, ss, rfl⟩
  refine ⟨s, ss, h, ?_⟩
  rw [splitOnSlash.eq_def]
  split
  · simp_all
  · simp_all
  · next c2 rest _ heq =>
    injection heq with h1 h2
    subst h1
    subst h2
    rw [h]

theorem splitOnSlash_append (x y : Str) :
    splitOnSlash (x ++ '/' :: y) = splitOnSlash x ++ splitOnSlash y := by
  induction x with
  | nil => rfl
  | cons c t ih =>
    by_cases hc : c = '/'
    · subst hc
      rw [List.cons_append, splitOnSlash_cons_slash, splitOnSlash_cons_slash, ih]
      rfl
    · obtain ⟨s1, ss1, ht1, he1⟩ := splitOnSlash_cons_ne c (t ++ '/' :: y) hc
      obtain ⟨s2, ss2, ht2, he2⟩ := splitOnSlash_cons_ne c t hc
      rw [List.cons_append, he1, he2]
      rw [ht2] at ih
      rw [ih] at ht1
      injection ht1 with hs hss
      rw [hs, ← hss]
      rfl

theorem mem_splitOnSlash_no_slash (s : Str) : ∀ w ∈ splitOnSlash s, '/' ∉ w := by
  induction s with
  | nil => simp [splitOnSlash]
  | cons c t ih =>
    by_cases hc : c = '/'
    · subst hc
      rw [splitOnSlash_cons_slash]
      intro w hw
      rcases List.mem_cons.mp hw with rfl | hw
      · simp
      · exact ih w hw
    · obtain ⟨s1, ss1, ht, he⟩ := splitOnSlash_cons_ne c t hc
      rw [he]
      intro w hw
      rcases List.mem_cons.mp hw with rfl | hw
      · intro hm
        rcases List.mem_cons.mp hm with h1 | h1
        · exact hc h1.symm
        · exact ih s1 (ht ▸ List.mem_cons_self _ _) h1
      · exact ih w (ht ▸ List.mem_cons_of_mem _ hw)

theorem splitOnSlash_no_slash_eq (s : Str) (h : '/' ∉ s) : splitOnSlash s = [s] := by
  induction s with
  | nil => rfl
  | cons c t ih =>
    have hc : c ≠ '/' := fun e => h (e ▸ List.mem_cons_self c t)
    obtain ⟨s1, ss1, ht, he⟩ := splitOnSlash_cons_ne c t hc
    rw [ih (fun m => h (List.mem_cons_of_mem _ m))] at ht
    injection ht with h1 h2
    rw [he, h1, h2]

theorem splitOnSlash_replicate (n : Nat) (s : Str) :
    splitOnSlash (List.replicate n '/' ++ s) = List.replicate n [] ++ splitOnSlash s := by
  induction n with
  | zero => simp
  | succ n ih => simp [List.replicate_succ, splitOnSlash_cons_slash, ih]

theorem joinSlash_split (cs : List Str) (h : ∀ w ∈ cs, '/' ∉ w) (hne : cs ≠ []) :
    splitOnSlash (joinSlash cs) = cs := by
  induction cs with
  | nil => exact absurd rfl hne
  | cons w ws ih =>
    cases ws with
    | nil => exact splitOnSlash_no_slash_eq w (h w (List.mem_cons_self _ _))
    | cons w2 ws2 =>
      show splitOnSlash (w ++ '/' :: joinSlash (w2 :: ws2)) = w :: w2 :: ws2
      rw [splitOnSlash_append, splitOnSlash_no_slash_eq w (h w (List.mem_cons_self _ _)),
        ih (fun v hv => h v (List.mem_cons_of_mem _ hv)) (by simp)]
      rfl

/-! ## Lemmas about normComps -/

theorem normComps_invariant (f : Bool) (P : Str → Prop) (cs : List Str) :
    ∀ acc, (∀ w ∈ cs, P w) → (∀ w ∈ acc, P w ∧ w ≠ [] ∧ w ≠ dotStr) →
      ∀ w ∈ cs.foldl (normStep f) acc, P w ∧ w ≠ [] ∧ w ≠ dotStr := by
  induction cs with
  | nil =>
    intro acc _ hacc
    simpa using hacc
  | cons c cs ih =>
    intro acc hcs hacc
    rw [List.foldl_cons]
    refine ih _ (fun w hw => hcs w (List.mem_cons_of_mem _ hw)) ?_
    by_cases h1 : (c = [] ∨ c = dotStr)
    · unfold normStep
      rw [if_pos h1]
      exact hacc
    · unfold normStep
      rw [if_neg h1]
      by_cases h2 : (c ≠ dotdotStr ∨ (¬f ∧ acc = []) ∨ acc.getLast? = some dotdotStr)
      · rw [if_pos h2]
        intro w hw
        rcases List.mem_append.mp hw with hw | hw
        · exact hacc w hw
        · push_neg at h1
          rcases List.mem_singleton.mp hw with rfl
          exact ⟨hcs w (List.mem_cons_self _ _), h1.1, h1.2⟩
      · rw [if_neg h2]
        by_cases h3 : acc ≠ []
        · rw [if_pos h3]
          intro w hw
          exact hacc w ((List.dropLast_sublist acc).subset hw)
        · rw [if_neg h3]
          exact hacc

theorem mem_normComps (f : Bool) (cs : List Str) (hcs : ∀ w ∈ cs, '/' ∉ w) :
    ∀ w ∈ normComps f cs, '/' ∉ w ∧ w ≠ [] ∧ w ≠ dotStr :=
  normComps_invariant f (fun w => '/' ∉ w) cs [] hcs (by simp)

theorem normComps_concat_good (f : Bool) (cs : List Str) (w : Str)
    (hne : w ≠ []) (hdot : w ≠ dotStr) (hddot : w ≠ dotdotStr) :
    normComps f (cs ++ [w]) = normComps f cs ++ [w] := by
  unfold normComps
  rw [List.foldl_append, List.foldl_cons, List.foldl_nil]
  generalize List.foldl (normStep f) [] cs = acc
  unfold normStep
  rw [if_neg (by simp [hne, hdot]), if_pos (Or.inl hddot)]

theorem normComps_concat_empty (f : Bool) (cs : List Str) :
    normComps f (cs ++ [[]]) = normComps f cs := by
  unfold normComps
  rw [List.foldl_append, List.foldl_cons, List.foldl_nil]
  generalize List.foldl (normStep f) [] cs = acc
  unfold normStep
  rw [if_pos (Or.inl rfl)]

/-! ## The words translate_path extracts from a normalised path -/

/-- The filtered word list inside `translate_path`, applied to the
normalised path. -/
def translateWords (q : Str) : List Str :=
  ((splitOnSlash q).filter (fun w => ¬ w = [])).filter
    (fun w => ¬ w.contains '/' ∧ w ≠ dotStr ∧ w ≠ dotdotStr)

theorem translate_path_eq (root p : Str) :
    translate_path root p =
      if (rstrip (stripQF p)).getLast? = some '/' then
        (translateWords (posixpath_normpath (unquote (stripQF p)))).foldl os_path_join root ++ ['/']
      else (translateWords (posixpath_normpath (unquote (stripQF p)))).foldl os_path_join root := rfl

theorem joinSlash_ne_nil (cs : List Str) (hne : cs ≠ []) (hh : ∀ w ∈ cs, w ≠ []) :
    joinSlash cs ≠ [] := by
  cases cs with
  | nil => exact absurd rfl hne
  | cons w ws =>
    cases ws with
    | nil => exact hh w (List.mem_cons_self _ _)
    | cons w2 ws2 =>
      show w ++ '/' :: joinSlash (w2 :: ws2) ≠ []
      simp

theorem contains_false_of_not_mem {w : Str} {c : Char} (h : c ∉ w) : w.contains c = false := by
  simpa using h

theorem translateWords_out (sl : Nat) (cs : List Str)
    (hmem : ∀ w ∈ cs, '/' ∉ w ∧ w ≠ [] ∧ w ≠ dotStr) :
    translateWords (if List.replicate sl '/' ++ joinSlash cs = [] then dotStr
      else List.replicate sl '/' ++ joinSlash cs) =
      cs.filter (fun w => ¬ w = dotdotStr) := by
  by_cases hcs : cs = []
  · subst hcs
    cases sl with
    | zero => rfl
    | succ n =>
      rw [if_neg (by simp)]
      unfold translateWords
      have hs : splitOnSlash (List.replicate (n + 1) '/' ++ joinSlash ([] : List Str)) =
          List.replicate (n + 1) ([] : Str) ++ [[]] := by
        show splitOnSlash (List.replicate (n + 1) '/' ++ ([] : Str)) = _
        rw [splitOnSlash_replicate]
        rfl
      rw [hs]
      simp
  · rw [if_neg (by
      intro h
      exact joinSlash_ne_nil cs hcs (fun w hw => (hmem w hw).2.1)
        (List.append_eq_nil.mp h).2)]
    unfold translateWords
    rw [splitOnSlash_replicate, joinSlash_split cs (fun w hw => (hmem w hw).1) hcs,
      List.filter_append]
    have h1 : (List.replicate sl ([] : Str)).filter (fun w => ¬ w = []) = [] := by
      induction sl with
      | zero => rfl
      | succ n ih =>
        rw [List.replicate_succ, List.filter_cons, if_neg (by decide)]
        exact ih
    have h2 : cs.filter (fun w => ¬ w = []) = cs :=
      List.filter_eq_self.mpr (fun w hw => by simp [(hmem w hw).2.1])
    rw [h1, h2, List.nil_append]
    apply List.filter_congr
    intro w hw
    obtain ⟨hn1, hn2, hn3⟩ := hmem w hw
    by_cases hd : w = dotdotStr
    · subst hd
      decide
    · simp [hd, hn1, hn3]

theorem translateWords_normpath (p : Str) :
    translateWords (posixpath_normpath p) =
      (normComps (decide (initialSlashes p ≠ 0)) (splitOnSlash p)).filter
        (fun w => ¬ w = dotdotStr) := by
  by_cases hp : p = []
  · subst hp
    rfl
  · unfold posixpath_normpath
    rw [if_neg hp]
    exact translateWords_out (initialSlashes p) _
      (mem_normComps _ _ (mem_splitOnSlash_no_slash p))

/-! ## Helpers for the directory-index path equality -/

theorem head?_append_ne_nil {s : Str} (t : Str) (h : s ≠ []) :
    (s ++ t).head? = s.head? := by
  cases s with
  | nil => exact absurd rfl h
  | cons c u => rfl

theorem initialSlashes_ne_zero_iff (p : Str) :
    initialSlashes p ≠ 0 ↔ p.head? = some '/' := by
  unfold initialSlashes
  split
  · next h =>
    rcases List.isPrefixOf_iff_prefix.mp h with ⟨t, rfl⟩
    simp
  · next h =>
    split
    · next h2 =>
      rcases List.isPrefixOf_iff_prefix.mp h2 with ⟨t, rfl⟩
      simp
    · next h2 =>
      split
      · next h3 =>
        rcases List.isPrefixOf_iff_prefix.mp h3 with ⟨t, rfl⟩
        simp
      · next h3 =>
        simp only [ne_eq, not_true_eq_false, false_iff]
        intro hh
        cases p with
        | nil => simp at hh
        | cons c u =>
          injection hh with hc
          subst hc
          exact h3 (List.isPrefixOf_iff_prefix.mpr ⟨u, rfl⟩)

theorem initFlag_congr {p q : Str} (h : p.head? = q.head?) :
    decide (initialSlashes p ≠ 0) = decide (initialSlashes q ≠ 0) := by
  apply decide_eq_decide.mpr
  rw [initialSlashes_ne_zero_iff, initialSlashes_ne_zero_iff, h]

theorem normComps_singleton_empty (f : Bool) : normComps f [[]] = [] := by
  unfold normComps normStep
  rw [List.foldl_cons, if_pos (Or.inl rfl), List.foldl_nil]

theorem mem_filtered_normComps_good (f : Bool) (u : Str) :
    ∀ w ∈ (normComps f (splitOnSlash u)).filter (fun w => ¬ w = dotdotStr), goodWord w := by
  intro w hw
  obtain ⟨hmem, hdec⟩ := List.mem_filter.mp hw
  obtain ⟨h1, h2, h3⟩ := mem_normComps f (splitOnSlash u) (mem_splitOnSlash_no_slash u) w hmem
  exact ⟨h2, h1, h3, by simpa using hdec⟩

theorem goodWord_head_ne_slash {w : Str} (h : goodWord w) : w.head? ≠ some '/' := by
  obtain ⟨h1, h2, _, _⟩ := h
  cases w with
  | nil => simp
  | cons c t =>
    intro hc
    injection hc with hc
    exact h2 (hc ▸ List.mem_cons_self c t)

theorem goodWord_getLast_ne_slash {w : Str} (h : goodWord w) : w.getLast? ≠ some '/' := by
  obtain ⟨h1, h2, _, _⟩ := h
  intro hc
  obtain ⟨hne, he⟩ := List.mem_getLast?_eq_getLast (Option.mem_def.mpr hc)
  exact h2 (he ▸ List.getLast_mem hne)

theorem foldl_join_good (root : Str) (hroot1 : root ≠ []) (hroot2 : root.getLast? ≠ some '/')
    (ws : List Str) (hws : ∀ w ∈ ws, goodWord w) :
    ws.foldl os_path_join root ≠ [] ∧ (ws.foldl os_path_join root).getLast? ≠ some '/' := by
  induction ws using List.reverseRecOn with
  | nil => exact ⟨hroot1, hroot2⟩
  | append_singleton ws w ih =>
    obtain ⟨ih1, ih2⟩ := ih (fun v hv => hws v (List.mem_append_left _ hv))
    have hw : goodWord w := hws w (List.mem_append_right _ (List.mem_cons_self _ _))
    rw [List.foldl_append, List.foldl_cons, List.foldl_nil]
    generalize hJ : List.foldl os_path_join root ws = j at ih1 ih2
    unfold os_path_join
    rw [if_neg (goodWord_head_ne_slash hw), if_neg (by
      intro hc
      rcases hc with hc | hc
      · exact ih1 hc
      · exact ih2 hc)]
    constructor
    · simp
    · have hx : (j ++ '/' :: w) = (j ++ ['/']) ++ w := by simp
      rw [hx, List.getLast?_append_of_ne_nil _ hw.1]
      exact goodWord_getLast_ne_slash hw

theorem os_path_join_index (j : Str) (hj1 : j ≠ []) (hj2 : j.getLast? ≠ some '/') :
    os_path_join j indexHtmlStr = j ++ '/' :: indexHtmlStr := by
  unfold os_path_join
  rw [if_neg (by decide), if_neg (by
    intro hc
    rcases hc with hc | hc
    · exact hj1 hc
    · exact hj2 hc)]

theorem head_nohex_of (b : Str) (d : Char) (hb : b.head? = some d) (hd : hexVal d = none) :
    ∀ c, b.head? = some c → hexVal c = none := by
  intro c hc
  rw [hb] at hc
  injection hc with hc
  rw [← hc]
  exact hd

theorem exists_concat_of_getLast? {s : Str} {c : Char} (h : s.getLast? = some c) :
    ∃ t, s = t ++ [c] := by
  induction s using List.reverseRecOn with
  | nil => simp at h
  | append_singleton t a _ =>
    rw [List.getLast?_concat] at h
    injection h with h
    exact ⟨t, by rw [h]⟩

/-- The path the directory-index branch rebuilds translates to exactly the
`index.html` join of the translated requested path: rewriting `self.path`
to `requested_path + "/" + "index.html"` and re-running `translate_path`
lands on `os.path.join(fs_path, "index.html")`. -/
theorem translate_mkIndexPath (root P : Str) (hq : '?' ∉ P) (hh : '#' ∉ P)
    (hroot1 : root ≠ []) (hroot2 : root.getLast? ≠ some '/') :
    translate_path root (mkIndexPath P) = os_path_join (translate_path root P) indexHtmlStr := by
  have hstripP : stripQF P = P := stripQF_of_no_qf hq hh
  obtain ⟨hJ1, hJ2⟩ := foldl_join_good root hroot1 hroot2 _ (mem_filtered_normComps_good
    (decide (initialSlashes (unquote P) ≠ 0)) (unquote P))
  -- the right-hand side is the joined word path plus '/' :: indexHtmlStr in both flag cases
  have hRHS : os_path_join (translate_path root P) indexHtmlStr =
      ((normComps (decide (initialSlashes (unquote P) ≠ 0))
        (splitOnSlash (unquote P))).filter (fun w => ¬ w = dotdotStr)).foldl os_path_join root ++
        '/' :: indexHtmlStr := by
    rw [translate_path_eq root P, hstripP, translateWords_normpath (unquote P)]
    by_cases hflag : (rstrip P).getLast? = some '/'
    · rw [if_pos hflag]
      unfold os_path_join
      rw [if_neg (by decide), if_pos (Or.inr (by rw [List.getLast?_concat]))]
      simp
    · rw [if_neg hflag]
      exact os_path_join_index _ hJ1 hJ2
  rw [hRHS]
  by_cases hPend : P.getLast? = some '/'
  · -- requested path already ends with a slash
    obtain ⟨P', rfl⟩ := exists_concat_of_getLast? hPend
    have hmk : mkIndexPath (P' ++ ['/']) = (P' ++ ['/']) ++ indexHtmlStr := by
      unfold mkIndexPath
      rw [if_pos hPend]
    have hsq : '?' ∉ (P' ++ ['/']) ++ indexHtmlStr := by
      intro hm
      rcases List.mem_append.mp hm with hm | hm
      · exact hq hm
      · revert hm
        decide
    have hsh : '#' ∉ (P' ++ ['/']) ++ indexHtmlStr := by
      intro hm
      rcases List.mem_append.mp hm with hm | hm
      · exact hh hm
      · revert hm
        decide
    have hlast : (((P' ++ ['/']) ++ indexHtmlStr) : Str).getLast? = some 'l' := by
      rw [List.getLast?_append_of_ne_nil _ (by decide)]
      decide
    have hu2 : unquote (P' ++ ['/']) = unquote P' ++ ['/'] := by
      rw [unquote_append ['/'] (head_nohex_of _ '/' rfl (by decide))]
      rfl
    have hu1 : unquote ((P' ++ ['/']) ++ indexHtmlStr) =
        (unquote P' ++ ['/']) ++ indexHtmlStr := by
      rw [unquote_append indexHtmlStr (head_nohex_of _ 'i' rfl (by decide)),
        unquote_no_pct indexHtmlStr (by decide), hu2]
    rw [hmk, translate_path_eq, stripQF_of_no_qf hsq hsh,
      if_neg (by
        rw [rstrip_of_getLast?_nonspace hlast (by decide), hlast]
        decide),
      translateWords_normpath, hu1, hu2]
    have hsplit1 : splitOnSlash ((unquote P' ++ ['/']) ++ indexHtmlStr) =
        splitOnSlash (unquote P') ++ [indexHtmlStr] := by
      rw [show ((unquote P' ++ ['/']) ++ indexHtmlStr : Str) =
          unquote P' ++ '/' :: indexHtmlStr by simp]
      rw [splitOnSlash_append, splitOnSlash_no_slash_eq indexHtmlStr (by decide)]
    have hsplit2 : splitOnSlash (unquote P' ++ ['/']) =
        splitOnSlash (unquote P') ++ [[]] := by
      rw [show (unquote P' ++ ['/'] : Str) = unquote P' ++ '/' :: [] by simp]
      rw [splitOnSlash_append]
      rfl
    have hflageq : decide (initialSlashes ((unquote P' ++ ['/']) ++ indexHtmlStr) ≠ 0) =
        decide (initialSlashes (unquote P' ++ ['/']) ≠ 0) :=
      initFlag_congr (head?_append_ne_nil _ (by simp))
    rw [hsplit1, hsplit2, hflageq,
      normComps_concat_good _ _ _ (by decide) (by decide) (by decide),
      normComps_concat_empty, List.filter_append,
      show (List.filter (fun w => ¬ w = dotdotStr) [indexHtmlStr]) = [indexHtmlStr] by decide,
      List.foldl_append, List.foldl_cons, List.foldl_nil]
    apply os_path_join_index
    · exact (foldl_join_good root hroot1 hroot2 _ (mem_filtered_normComps_good _ _)).1
    · exact (foldl_join_good root hroot1 hroot2 _ (mem_filtered_normComps_good _ _)).2
  · -- no trailing slash: one is inserted before index.html
    have hmk : mkIndexPath P = P ++ '/' :: indexHtmlStr := by
      unfold mkIndexPath
      rw [if_neg hPend]
      simp
    have hsq : '?' ∉ P ++ '/' :: indexHtmlStr := by
      intro hm
      rcases List.mem_append.mp hm with hm | hm
      · exact hq hm
      · revert hm
        decide
    have hsh : '#' ∉ P ++ '/' :: indexHtmlStr := by
      intro hm
      rcases List.mem_append.mp hm with hm | hm
      · exact hh hm
      · revert hm
        decide
    have hlast : ((P ++ '/' :: indexHtmlStr) : Str).getLast? = some 'l' := by
      rw [List.getLast?_append_of_ne_nil _ (by decide)]
      decide
    have hu1 : unquote (P ++ '/' :: indexHtmlStr) = unquote P ++ '/' :: indexHtmlStr := by
      rw [unquote_append ('/' :: indexHtmlStr) (head_nohex_of _ '/' rfl (by decide)),
        unquote_no_pct ('/' :: indexHtmlStr) (by decide)]
    rw [hmk, translate_path_eq, stripQF_of_no_qf hsq hsh,
      if_neg (by
        rw [rstrip_of_getLast?_nonspace hlast (by decide), hlast]
        decide),
      translateWords_normpath, hu1]
    have hsplit1 : splitOnSlash (unquote P ++ '/' :: indexHtmlStr) =
        splitOnSlash (unquote P) ++ [indexHtmlStr] := by
      rw [splitOnSlash_append, splitOnSlash_no_slash_eq indexHtmlStr (by decide)]
    rw [hsplit1, normComps_concat_good _ _ _ (by decide) (by decide) (by decide)]
    have hflageq : normComps (decide (initialSlashes (unquote P ++ '/' :: indexHtmlStr) ≠ 0))
        (splitOnSlash (unquote P)) =
        normComps (decide (initialSlashes (unquote P) ≠ 0)) (splitOnSlash (unquote P)) := by
      by_cases huP : unquote P = []
      · rw [huP]
        show normComps _ [[]] = normComps _ [[]]
        rw [normComps_singleton_empty, normComps_singleton_empty]
      · rw [initFlag_congr (head?_append_ne_nil _ huP)]
    rw [hflageq, List.filter_append,
      show (List.filter (fun w => ¬ w = dotdotStr) [indexHtmlStr]) = [indexHtmlStr] by decide,
      List.foldl_append, List.foldl_cons, List.foldl_nil]
    exact os_path_join_index _ hJ1 hJ2

/-! ## Lemmas about urlsplit and urlparse on origin-form targets -/

theorem splitScheme_no_scheme (T : Str) (h : T.head?.map isAsciiAlpha ≠ some true) :
    splitScheme T = ([], T) := by
  unfold splitScheme
  rw [if_neg (fun hcond => h hcond.2.2.1)]

theorem urlsplit_path_no_qf {T : Str} {r : SplitResult} (h : urlsplit T = some r) :
    '?' ∉ r.path ∧ '#' ∉ r.path := by
  unfold urlsplit at h
  simp only [] at h
  split at h
  · exact absurd h (by simp)
  · injection h with h
    subst h
    dsimp only
    constructor
    · rw [stripQF_comm]
      exact stripQF_no_qm _
    · rw [stripQF_comm]
      exact stripQF_no_hash _

theorem mem_of_head?_eq {s : Str} {c : Char} (h : s.head? = some c) : c ∈ s := by
  cases s with
  | nil => simp at h
  | cons d t =>
    injection h with h
    rw [← h]
    exact List.mem_cons_self d t

theorem stripQF_head_slash {T : Str} (h0 : T.head? = some '/') :
    (stripQF T).head? = some '/' := by
  cases T with
  | nil => simp at h0
  | cons c t =>
    injection h0 with h0
    subst h0
    unfold stripQF
    rw [List.takeWhile_cons, if_pos (by decide), List.takeWhile_cons, if_pos (by decide)]
    rfl

theorem params_noop (p : Str) (hs : '/' ∈ p) (h : ';' ∉ lastSlashSeg p) :
    (if p.contains ';' = true then splitparams_path p else p) = p := by
  by_cases hc : p.contains ';' = true
  · rw [if_pos hc]
    unfold splitparams_path
    rw [if_pos (by simpa using hs)]
    simp only []
    rw [if_neg (by simpa using h)]
  · rw [if_neg hc]

theorem urlsplit_origin (T : Str)
    (h0 : T.head? = some '/')
    (h1 : (T.drop 1).head? ≠ some '/')
    (h2 : ∀ c ∈ T, ¬(c = '\t' ∨ c = '\r' ∨ c = '\n')) :
    urlsplit T = some ⟨[], [], stripQF T,
      ((T.takeWhile (fun c => c ≠ '#')).dropWhile (fun c => c ≠ '?')).drop 1,
      (T.dropWhile (fun c => c ≠ '#')).drop 1⟩ := by
  have hfil : removeUnsafeChars T = T := by
    unfold removeUnsafeChars
    rw [List.filter_eq_self]
    intro c hc
    simpa using h2 c hc
  have hsch : splitScheme T = ([], T) := by
    apply splitScheme_no_scheme
    rw [h0]
    decide
  have hpre : ('/' :: '/' :: []).isPrefixOf T = false := by
    cases T with
    | nil => simp at h0
    | cons c t =>
      injection h0 with h0
      subst h0
      cases t with
      | nil => rfl
      | cons d u =>
        have hd : ('/' : Char) ≠ d := by
          intro he
          exact h1 (by rw [← he]; rfl)
        show (('/' : Char) == '/' && (('/' : Char) == d && List.isPrefixOf [] u)) = false
        simp [hd]
  have hnetloc : netlocOf T = [] := by
    unfold netlocOf
    simp [hpre]
  have hrest : restAfterNetloc T = T := by
    unfold restAfterNetloc
    simp [hpre]
  unfold urlsplit
  simp only []
  rw [hfil, hsch]
  dsimp only
  rw [hnetloc, hrest, if_neg (by decide)]
  rw [stripQF_comm]

theorem urlparse_path_origin (T : Str)
    (h0 : T.head? = some '/')
    (h1 : (T.drop 1).head? ≠ some '/')
    (h2 : ∀ c ∈ T, ¬(c = '\t' ∨ c = '\r' ∨ c = '\n'))
    (h3 : ';' ∉ lastSlashSeg (stripQF T)) :
    urlparse_path T = some (stripQF T) := by
  unfold urlparse_path
  rw [urlsplit_origin T h0 h1 h2]
  dsimp only
  rw [params_noop (stripQF T) (mem_of_head?_eq (stripQF_head_slash h0)) h3]

/-! ## Structural lemmas about the handler -/

theorem errorResponse_head (ctx : Ctx) (code : Nat) :
    errorResponse ctx code true = { errorResponse ctx code false with body := [] } := rfl

theorem listingResponse_head (ctx : Ctx) (p : Str) :
    listingResponse ctx p true = { listingResponse ctx p false with body := [] } := rfl

theorem finishFile_head (ctx : Ctx) (p : Str) :
    finishFile ctx p true = { finishFile ctx p false with body := [] } := by
  unfold finishFile
  split
  · exact errorResponse_head ctx 404
  · cases h : ctx.fs.openFile p with
    | none => exact errorResponse_head ctx 404
    | some bm => rfl

theorem base_do_head (ctx : Ctx) (sp : Str) :
    base_do ctx sp true = (base_do ctx sp false).map (fun x => { x with body := [] }) := by
  unfold base_do
  by_cases hd : ctx.fs.os_isdir (translate_path ctx.root sp) = true
  · rw [if_pos hd, if_pos hd]
    cases hu : urlsplit sp with
    | none => rfl
    | some parts =>
      dsimp only
      by_cases hsl : ¬ parts.path.getLast? = some '/'
      · rw [if_pos hsl, if_pos hsl]
        rfl
      · rw [if_neg hsl, if_neg hsl]
        by_cases h1 : ctx.fs.os_isfile (os_path_join (translate_path ctx.root sp) indexHtmlStr) = true
        · rw [if_pos h1, if_pos h1, Option.map_some', finishFile_head]
        · rw [if_neg h1, if_neg h1]
          by_cases h2 : ctx.fs.os_isfile (os_path_join (translate_path ctx.root sp) indexHtmStr) = true
          · rw [if_pos h2, if_pos h2, Option.map_some', finishFile_head]
          · rw [if_neg h2, if_neg h2, Option.map_some', listingResponse_head]
  · rw [if_neg hd, if_neg hd, Option.map_some', finishFile_head]

theorem do_GET_direct (ctx : Ctx) (T P : Str) (hp : urlparse_path T = some P)
    (hm : resolve_mode ctx.fs ctx.root P = .directFile) :
    do_GET ctx T = base_do ctx T false := by
  unfold do_GET serve_requested_path
  rw [hp]
  dsimp only
  rw [hm]

theorem do_GET_dirIndex (ctx : Ctx) (T P : Str) (hp : urlparse_path T = some P)
    (hm : resolve_mode ctx.fs ctx.root P = .directoryIndex) :
    do_GET ctx T = base_do ctx (mkIndexPath P) false := by
  unfold do_GET serve_requested_path
  rw [hp]
  dsimp only
  rw [hm]

theorem do_GET_fallback (ctx : Ctx) (T P : Str) (hp : urlparse_path T = some P)
    (hm : resolve_mode ctx.fs ctx.root P = .fallback) :
    do_GET ctx T = base_do ctx (strOf (r"/index.html")) false := by
  unfold do_GET serve_requested_path serve_index
  rw [hp]
  dsimp only
  rw [hm]

theorem base_do_nondir (ctx : Ctx) (sp : Str) (h0 : Bool)
    (h : ctx.fs.os_isdir (translate_path ctx.root sp) = false) :
    base_do ctx sp h0 = some (finishFile ctx (translate_path ctx.root sp) h0) := by
  unfold base_do
  rw [if_neg (by simp [h])]

theorem openFile_file (fs : FS) (p : Str) (b : List Nat) (m : Nat)
    (h : fs.stat p = .file b true m) : fs.openFile p = some (b, m) := by
  unfold FS.openFile
  rw [h]

theorem finishFile_file (ctx : Ctx) (p : Str) (b : List Nat) (m : Nat)
    (hstat : ctx.fs.stat p = .file b true m) (hslash : ¬ p.getLast? = some '/') :
    finishFile ctx p false =
      { status := 200
        headers := baseHeaders ctx ++
          [(strOf (r"Content-type"), ctx.guessType p),
           (strOf (r"Content-Length"), natStr b.length),
           (strOf (r"Last-Modified"), ctx.fmtDate m)]
        body := b
        srcPath := some p } := by
  unfold finishFile
  rw [if_neg hslash, openFile_file ctx.fs p b m hstat]
  rfl

theorem finishFile_err (ctx : Ctx) (p : Str) (hopen : ctx.fs.openFile p = none) :
    finishFile ctx p false = errorResponse ctx 404 false := by
  unfold finishFile
  by_cases hslash : p.getLast? = some '/'
  · rw [if_pos hslash]
  · rw [if_neg hslash, hopen]

theorem os_exists_true (fs : FS) (p : Str) (h : fs.stat p ≠ .absent) :
    fs.os_exists p = true := by
  simp [FS.os_exists, h]

theorem os_isdir_false (fs : FS) (p : Str) (h : fs.stat p ≠ .dir) :
    fs.os_isdir p = false := by
  simp [FS.os_isdir]
  intro he
  exact absurd he h

theorem resolve_mode_direct (fs : FS) (root P : Str)
    (h1 : fs.os_exists (translate_path root P) = true)
    (h2 : fs.os_isdir (translate_path root P) = false) :
    resolve_mode fs root P = .directFile := by
  unfold resolve_mode
  rw [if_pos ⟨h1, by simp [h2]⟩]

theorem resolve_mode_dirIndex (fs : FS) (root P : Str)
    (h1 : fs.os_isdir (translate_path root P) = true)
    (h2 : fs.os_exists (os_path_join (translate_path root P) indexHtmlStr) = true) :
    resolve_mode fs root P = .directoryIndex := by
  unfold resolve_mode
  rw [if_neg (by simp [h1]), if_pos ⟨h1, h2⟩]

/-! ## Query/fragment suffixes never reach the resolution -/

/-- A query-fragment suffix of a request target: empty, or starting the
query (`?`) or the fragment (`#`). -/
def qfSuffix (s : Str) : Prop :=
  s = [] ∨ s.head? = some '?' ∨ s.head? = some '#'

theorem takeWhile_append_all (p : Char → Bool) (P s : Str) (hP : ∀ c ∈ P, p c = true) :
    (P ++ s).takeWhile p = P ++ s.takeWhile p := by
  induction P with
  | nil => rfl
  | cons c t ih =>
    rw [List.cons_append, List.takeWhile_cons, if_pos (hP c (List.mem_cons_self _ _)),
      ih (fun d hd => hP d (List.mem_cons_of_mem _ hd)), List.cons_append]

theorem takeWhile_head_false (p : Char → Bool) (s : Str) (h : s.head?.map p ≠ some true) :
    s.takeWhile p = [] := by
  cases s with
  | nil => rfl
  | cons c t =>
    rw [List.takeWhile_cons, if_neg (by
      intro hc
      exact h (by simp [hc]))]

theorem stripQF_append_qf (P s : Str) (hq : '?' ∉ P) (hh : '#' ∉ P) (hs : qfSuffix s) :
    stripQF (P ++ s) = P := by
  rcases hs with rfl | hs | hs
  · rw [List.append_nil]
    exact stripQF_of_no_qf hq hh
  · unfold stripQF
    rw [takeWhile_append_all _ P s (fun c hc => by
        simp only [decide_eq_true_eq]
        exact fun e => hq (e ▸ hc)),
      takeWhile_head_false _ s (by rw [hs]; decide), List.append_nil,
      List.takeWhile_eq_self_iff.mpr (fun c hc => by
        simp only [decide_eq_true_eq]
        exact fun e => hh (e ▸ hc))]
  · cases s with
    | nil => simp at hs
    | cons c t =>
      injection hs with hs
      subst hs
      unfold stripQF
      rw [takeWhile_append_all _ P ('#' :: t) (fun c hc => by
          simp only [decide_eq_true_eq]
          exact fun e => hq (e ▸ hc)),
        List.takeWhile_cons, if_pos (by decide),
        takeWhile_append_all (fun c => decide (c ≠ '#')) P
          ('#' :: List.takeWhile (fun c => decide (c ≠ '?')) t) (fun c hc => by
          simp only [decide_eq_true_eq]
          exact fun e => hh (e ▸ hc)),
        takeWhile_head_false (fun c => decide (c ≠ '#'))
          ('#' :: List.takeWhile (fun c => decide (c ≠ '?')) t) (by simp),
        List.append_nil]

theorem isPrefixOf_slash_false (X : Str) (h : X.head? ≠ some '/') :
    (('/' : Char) :: []).isPrefixOf X = false := by
  cases X with
  | nil => rfl
  | cons c t =>
    have hc : ('/' : Char) ≠ c := by
      intro he
      exact h (by rw [← he]; rfl)
    show (('/' : Char) == c && List.isPrefixOf [] t) = false
    simp [hc]

theorem removeUnsafeChars_qf {s : Str} (hs : qfSuffix s) : qfSuffix (removeUnsafeChars s) := by
  rcases hs with rfl | hs | hs
  · left
    rfl
  · cases s with
    | nil => simp at hs
    | cons c t =>
      injection hs with hs
      subst hs
      right
      left
      rfl
  · cases s with
    | nil => simp at hs
    | cons c t =>
      injection hs with hs
      subst hs
      right
      right
      rfl

theorem urlsplit_qf_suffix (P s : Str)
    (h0 : P.head? = some '/')
    (h1 : (P.drop 1).head? ≠ some '/')
    (h2 : ∀ c ∈ P, ¬(c = '\t' ∨ c = '\r' ∨ c = '\n'))
    (hq : '?' ∉ P) (hh : '#' ∉ P)
    (hs : qfSuffix s) :
    ∃ r, urlsplit (P ++ s) = some r ∧ r.path = P := by
  have hfil : removeUnsafeChars (P ++ s) = P ++ removeUnsafeChars s := by
    unfold removeUnsafeChars
    rw [List.filter_append, List.filter_eq_self.mpr (fun c hc => by simpa using h2 c hc)]
  have hs' : qfSuffix (removeUnsafeChars s) := removeUnsafeChars_qf hs
  obtain ⟨Pt, rfl⟩ : ∃ t, P = '/' :: t := by
    cases P with
    | nil => simp at h0
    | cons c t =>
      injection h0 with h0
      rw [← h0]
      exact ⟨t, rfl⟩
  have hh1 : (Pt ++ removeUnsafeChars s).head? ≠ some '/' := by
    cases Pt with
    | nil =>
      rcases hs' with he | hx | hx
      · rw [List.nil_append, he]
        simp
      · rw [List.nil_append, hx]
        decide
      · rw [List.nil_append, hx]
        decide
    | cons d u =>
      have hd : d ≠ '/' := by
        intro he
        exact h1 (by rw [show ((('/' :: d :: u) : Str).drop 1) = d :: u from rfl, he]; rfl)
      intro hinj
      rw [List.cons_append] at hinj
      injection hinj with hinj
      exact hd hinj
  have hsch : splitScheme ('/' :: Pt ++ removeUnsafeChars s) =
      ([], '/' :: Pt ++ removeUnsafeChars s) := by
    apply splitScheme_no_scheme
    rw [show (('/' :: Pt ++ removeUnsafeChars s).head?) = some '/' from rfl]
    decide
  have hpre : (('/' : Char) :: '/' :: []).isPrefixOf ('/' :: Pt ++ removeUnsafeChars s) = false := by
    show (('/' : Char) == '/' && (('/' : Char) :: []).isPrefixOf (Pt ++ removeUnsafeChars s)) = false
    rw [isPrefixOf_slash_false _ hh1]
    simp
  have hnet : netlocOf ('/' :: Pt ++ removeUnsafeChars s) = [] := by
    unfold netlocOf
    rw [if_neg (by rw [hpre]; simp)]
  have hrest : restAfterNetloc ('/' :: Pt ++ removeUnsafeChars s) =
      '/' :: Pt ++ removeUnsafeChars s := by
    unfold restAfterNetloc
    rw [if_neg (by rw [hpre]; simp)]
  refine ⟨⟨[], [],
      (('/' :: Pt ++ removeUnsafeChars s).takeWhile (fun c => c ≠ '#')).takeWhile
        (fun c => c ≠ '?'),
      ((('/' :: Pt ++ removeUnsafeChars s).takeWhile (fun c => c ≠ '#')).dropWhile
        (fun c => c ≠ '?')).drop 1,
      (('/' :: Pt ++ removeUnsafeChars s).dropWhile (fun c => c ≠ '#')).drop 1⟩, ?_, ?_⟩
  · unfold urlsplit
    simp only []
    rw [hfil, hsch]
    dsimp only
    rw [hnet, hrest, if_neg (by decide)]
  · show (('/' :: Pt ++ removeUnsafeChars s).takeWhile (fun c => c ≠ '#')).takeWhile
      (fun c => c ≠ '?') = '/' :: Pt
    rw [stripQF_comm]
    exact stripQF_append_qf _ _ hq hh hs'

theorem urlparse_path_qf_suffix (P s : Str)
    (h0 : P.head? = some '/')
    (h1 : (P.drop 1).head? ≠ some '/')
    (h2 : ∀ c ∈ P, ¬(c = '\t' ∨ c = '\r' ∨ c = '\n'))
    (hq : '?' ∉ P) (hh : '#' ∉ P)
    (h3 : ';' ∉ lastSlashSeg P)
    (hs : qfSuffix s) :
    urlparse_path (P ++ s) = some P := by
  obtain ⟨r, hr, hpath⟩ := urlsplit_qf_suffix P s h0 h1 h2 hq hh hs
  unfold urlparse_path
  rw [hr]
  dsimp only
  rw [hpath, params_noop P (mem_of_head?_eq h0) h3]

theorem isdir_false_of_direct (fs : FS) (root P : Str)
    (hm : resolve_mode fs root P = .directFile) :
    fs.os_isdir (translate_path root P) = false := by
  unfold resolve_mode at hm
  simp only [] at hm
  split at hm
  · next hcond => simpa using hcond.2
  · split at hm <;> simp_all

theorem translate_path_qf_suffix (root P s : Str) (hq : '?' ∉ P) (hh : '#' ∉ P)
    (hs : qfSuffix s) : translate_path root (P ++ s) = translate_path root P := by
  rw [← translate_path_stripQF root (P ++ s), stripQF_append_qf P s hq hh hs]

/-- `do_HEAD` runs the same resolution as `do_GET` and differs only by
dropping the body: headers and status are computed identically. -/
theorem do_HEAD_eq_do_GET (ctx : Ctx) (T : Str) :
    do_HEAD ctx T = (do_GET ctx T).map (fun x => { x with body := [] }) := by
  unfold do_GET do_HEAD serve_requested_path serve_index
  cases hu : urlparse_path T with
  | none => rfl
  | some P =>
    dsimp only
    cases resolve_mode ctx.fs ctx.root P with
    | directFile => exact base_do_head ctx T
    | directoryIndex => exact base_do_head ctx (mkIndexPath P)
    | fallback => exact base_do_head ctx (strOf (r"/index.html"))

theorem qf_suffix_same_response (ctx : Ctx) (P s1 s2 : Str)
    (h0 : P.head? = some '/')
    (h1 : (P.drop 1).head? ≠ some '/')
    (h2 : ∀ c ∈ P, ¬(c = '\t' ∨ c = '\r' ∨ c = '\n'))
    (hq : '?' ∉ P) (hh : '#' ∉ P)
    (h3 : ';' ∉ lastSlashSeg P)
    (hs1 : qfSuffix s1) (hs2 : qfSuffix s2) :
    urlparse_path (P ++ s1) = urlparse_path (P ++ s2) ∧
    do_GET ctx (P ++ s1) = do_GET ctx (P ++ s2) ∧
    do_HEAD ctx (P ++ s1) = do_HEAD ctx (P ++ s2) := by
  have e1 := urlparse_path_qf_suffix P s1 h0 h1 h2 hq hh h3 hs1
  have e2 := urlparse_path_qf_suffix P s2 h0 h1 h2 hq hh h3 hs2
  have ht1 := translate_path_qf_suffix ctx.root P s1 hq hh hs1
  have ht2 := translate_path_qf_suffix ctx.root P s2 hq hh hs2
  have hget : do_GET ctx (P ++ s1) = do_GET ctx (P ++ s2) := by
    cases hm : resolve_mode ctx.fs ctx.root P with
    | directFile =>
      have hnd := isdir_false_of_direct ctx.fs ctx.root P hm
      rw [do_GET_direct ctx _ P e1 hm, do_GET_direct ctx _ P e2 hm,
        base_do_nondir ctx _ false (by rw [ht1]; exact hnd),
        base_do_nondir ctx _ false (by rw [ht2]; exact hnd), ht1, ht2]
    | directoryIndex =>
      rw [do_GET_dirIndex ctx _ P e1 hm, do_GET_dirIndex ctx _ P e2 hm]
    | fallback =>
      rw [do_GET_fallback ctx _ P e1 hm, do_GET_fallback ctx _ P e2 hm]
  exact ⟨by rw [e1, e2], hget, by rw [do_HEAD_eq_do_GET, do_HEAD_eq_do_GET, hget]⟩

/-! ## Containment of every resolved and served path in the root -/

theorem mem_translateWords_good (q : Str) : ∀ w ∈ translateWords q, goodWord w := by
  intro w hw
  obtain ⟨hw1, hcond⟩ := List.mem_filter.mp hw
  obtain ⟨_, hne⟩ := List.mem_filter.mp hw1
  simp only [decide_eq_true_eq] at hcond hne
  exact ⟨hne, by simpa using hcond.1, hcond.2.1, hcond.2.2⟩

theorem translate_path_withinRoot (root s : Str) : withinRoot root (translate_path root s) := by
  rw [translate_path_eq]
  by_cases hflag : (rstrip (stripQF s)).getLast? = some '/'
  · rw [if_pos hflag]
    exact ⟨translateWords (posixpath_normpath (unquote (stripQF s))),
      mem_translateWords_good _, Or.inr rfl⟩
  · rw [if_neg hflag]
    exact ⟨translateWords (posixpath_normpath (unquote (stripQF s))),
      mem_translateWords_good _, Or.inl rfl⟩

theorem withinRoot_join (root q w : Str) (hroot1 : root ≠ [])
    (hroot2 : root.getLast? ≠ some '/') (hq : withinRoot root q) (hw : goodWord w) :
    withinRoot root (os_path_join q w) := by
  obtain ⟨ws, hws, hq'⟩ := hq
  have hstep : ∀ j : Str, (ws.foldl os_path_join root = j) →
      (ws ++ [w]).foldl os_path_join root = os_path_join j w := by
    intro j hj
    rw [List.foldl_append, List.foldl_cons, List.foldl_nil, hj]
  have hmem : ∀ v ∈ ws ++ [w], goodWord v := by
    intro v hv
    rcases List.mem_append.mp hv with hv | hv
    · exact hws v hv
    · rcases List.mem_singleton.mp hv with rfl
      exact hw
  rcases hq' with rfl | rfl
  · exact ⟨ws ++ [w], hmem, Or.inl (hstep _ rfl).symm⟩
  · obtain ⟨hj1, hj2⟩ := foldl_join_good root hroot1 hroot2 ws hws
    refine ⟨ws ++ [w], hmem, Or.inl ?_⟩
    rw [List.foldl_append, List.foldl_cons, List.foldl_nil]
    generalize List.foldl os_path_join root ws = j at hj1 hj2 ⊢
    have e1 : os_path_join (j ++ ['/']) w = (j ++ ['/']) ++ w := by
      unfold os_path_join
      rw [if_neg (goodWord_head_ne_slash hw), if_pos (Or.inr (by rw [List.getLast?_concat]))]
    have e2 : os_path_join j w = j ++ '/' :: w := by
      unfold os_path_join
      rw [if_neg (goodWord_head_ne_slash hw), if_neg (by
        intro hc
        rcases hc with hc | hc
        · exact hj1 hc
        · exact hj2 hc)]
    rw [e1, e2]
    simp

theorem finishFile_srcPath (ctx : Ctx) (p : Str) (h0 : Bool) (q : Str)
    (h : (finishFile ctx p h0).srcPath = some q) : q = p := by
  unfold finishFile at h
  split at h
  · exact absurd h (by simp [errorResponse])
  · cases ho : ctx.fs.openFile p with
    | none =>
      rw [ho] at h
      exact absurd h (by simp [errorResponse])
    | some bm =>
      rw [ho] at h
      injection h with h
      exact h.symm

theorem base_do_srcPath (ctx : Ctx) (sp : Str) (h0 : Bool) (resp : Response) (q : Str)
    (hroot1 : ctx.root ≠ []) (hroot2 : ctx.root.getLast? ≠ some '/')
    (hb : base_do ctx sp h0 = some resp) (hs : resp.srcPath = some q) :
    withinRoot ctx.root q := by
  unfold base_do at hb
  by_cases hd : ctx.fs.os_isdir (translate_path ctx.root sp) = true
  · rw [if_pos hd] at hb
    cases hu : urlsplit sp with
    | none =>
      rw [hu] at hb
      exact absurd hb (by simp)
    | some parts =>
      rw [hu] at hb
      dsimp only at hb
      by_cases hsl : ¬ parts.path.getLast? = some '/'
      · rw [if_pos hsl] at hb
        injection hb with hb
        rw [← hb] at hs
        exact absurd hs (by simp [redirectResponse])
      · rw [if_neg hsl] at hb
        by_cases h1 : ctx.fs.os_isfile (os_path_join (translate_path ctx.root sp) indexHtmlStr) = true
        · rw [if_pos h1] at hb
          injection hb with hb
          rw [← hb] at hs
          rw [finishFile_srcPath _ _ _ _ hs]
          exact withinRoot_join _ _ _ hroot1 hroot2 (translate_path_withinRoot _ _) (by
            constructor
            · decide
            · refine ⟨?_, ?_, ?_⟩ <;> decide)
        · rw [if_neg h1] at hb
          by_cases h2 : ctx.fs.os_isfile (os_path_join (translate_path ctx.root sp) indexHtmStr) = true
          · rw [if_pos h2] at hb
            injection hb with hb
            rw [← hb] at hs
            rw [finishFile_srcPath _ _ _ _ hs]
            exact withinRoot_join _ _ _ hroot1 hroot2 (translate_path_withinRoot _ _) (by
              constructor
              · decide
              · refine ⟨?_, ?_, ?_⟩ <;> decide)
          · rw [if_neg h2] at hb
            injection hb with hb
            rw [← hb] at hs
            exact absurd hs (by simp [listingResponse])
  · rw [if_neg hd] at hb
    injection hb with hb
    rw [← hb] at hs
    rw [finishFile_srcPath _ _ _ _ hs]
    exact translate_path_withinRoot _ _

theorem do_GET_srcPath (ctx : Ctx) (T : Str) (resp : Response) (q : Str)
    (hroot1 : ctx.root ≠ []) (hroot2 : ctx.root.getLast? ≠ some '/')
    (hg : do_GET ctx T = some resp) (hs : resp.srcPath = some q) :
    withinRoot ctx.root q := by
  unfold do_GET serve_requested_path serve_index at hg
  cases hu : urlparse_path T with
  | none =>
    rw [hu] at hg
    exact absurd hg (by simp)
  | some P =>
    rw [hu] at hg
    dsimp only at hg
    cases hm : resolve_mode ctx.fs ctx.root P with
    | directFile =>
      rw [hm] at hg
      exact base_do_srcPath ctx T false resp q hroot1 hroot2 hg hs
    | directoryIndex =>
      rw [hm] at hg
      exact base_do_srcPath ctx (mkIndexPath P) false resp q hroot1 hroot2 hg hs
    | fallback =>
      rw [hm] at hg
      exact base_do_srcPath ctx (strOf (r"/index.html")) false resp q hroot1 hroot2 hg hs

theorem translate_index_html (root : Str) :
    translate_path root (strOf (r"/index.html")) = os_path_join root indexHtmlStr := rfl

theorem os_path_join_getLast_index (q : Str) :
    (os_path_join q indexHtmlStr).getLast? = some 'l' := by
  unfold os_path_join
  rw [if_neg (by decide)]
  split
  · rw [List.getLast?_append_of_ne_nil _ (by decide)]
    decide
  · rw [show (q ++ '/' :: indexHtmlStr : Str) = (q ++ ['/']) ++ indexHtmlStr by simp,
      List.getLast?_append_of_ne_nil _ (by decide)]
    decide

theorem mem_splitparams_path {p : Str} {c : Char} (h : c ∈ splitparams_path p) : c ∈ p := by
  unfold splitparams_path at h
  split at h
  · simp only [] at h
    split at h
    · rcases List.mem_append.mp h with h | h
      · exact List.mem_reverse.mp ((List.dropWhile_sublist _).subset (List.mem_reverse.mp h))
      · have h2 := (List.takeWhile_prefix _).subset h
        unfold lastSlashSeg at h2
        exact List.mem_reverse.mp ((List.takeWhile_prefix _).subset (List.mem_reverse.mp h2))
    · exact h
  · exact (List.takeWhile_prefix _).subset h

theorem urlparse_path_no_qf {T P : Str} (h : urlparse_path T = some P) :
    '?' ∉ P ∧ '#' ∉ P := by
  unfold urlparse_path at h
  cases hu : urlsplit T with
  | none =>
    rw [hu] at h
    exact absurd h (by simp)
  | some r =>
    rw [hu] at h
    obtain ⟨h1, h2⟩ := urlsplit_path_no_qf hu
    injection h with h
    subst h
    constructor
    · intro hm
      by_cases hc : r.path.contains ';' = true
      · rw [if_pos hc] at hm
        exact h1 (mem_splitparams_path hm)
      · rw [if_neg hc] at hm
        exact h1 hm
    · intro hm
      by_cases hc : r.path.contains ';' = true
      · rw [if_pos hc] at hm
        exact h2 (mem_splitparams_path hm)
      · rw [if_neg hc] at hm
        exact h2 hm

/-! ## The claims -/

/-- Filesystem for the C1 counterexample: the content root `/r` holds one
regular file `app.js` with content byte 65. -/
def cexFs1 : FS :=
  ⟨fun p => if p = strOf (r"/r/app.js") then Entry.file [65] true 0 else Entry.absent⟩

/-- Context for the C1 counterexample. -/
def cexCtx1 : Ctx :=
  { root := strOf (r"/r"), fs := cexFs1, guessType := fun _ => [], fmtDate := fun _ => []
    serverHdr := [], dateHdr := [], errorPage := fun _ => [], listingPage := fun _ => []
    listingCtype := [] }

/-- C1 (counterexample): the request target `/app.js;v=1` refutes the claim
as stated.  Its path — `urlparse` strips the `;v=1` parameter segment — is
`/app.js`, which maps to the existing regular file `/r/app.js` with body
`[65]`, yet the GET response is a 404 whose body is not that file's bytes:
the existence check uses the parsed path while the serving handler
re-translates the raw target to `/r/app.js;v=1`. -/
theorem claim_C1_counterexample :
    urlparse_path (strOf (r"/app.js;v=1")) = some (strOf (r"/app.js")) ∧
    cexFs1.stat (translate_path (strOf (r"/r")) (strOf (r"/app.js"))) = Entry.file [65] true 0 ∧
    (do_GET cexCtx1 (strOf (r"/app.js;v=1"))).map Response.status = some 404 ∧
    ¬ (do_GET cexCtx1 (strOf (r"/app.js;v=1"))).map Response.body = some [65] := by
  refine ⟨rfl, rfl, rfl, by decide⟩

/-- C1 (amended): for every request whose target is an origin-form path —
it starts with `/` but not `//`, carries no tab/CR/LF and no `;` in the
final segment of its path part, so that `urlparse`'s path agrees with the
query/fragment-stripped target — and whose path maps to an existing
readable regular file under the content root, the GET response is a 200
whose body equals that file's bytes exactly. -/
theorem claim_C1_amended (ctx : Ctx) (T : Str) (b : List Nat) (m : Nat)
    (hT0 : T.head? = some '/')
    (hT1 : (T.drop 1).head? ≠ some '/')
    (hT2 : ∀ c ∈ T, ¬(c = '\t' ∨ c = '\r' ∨ c = '\n'))
    (hT3 : ';' ∉ lastSlashSeg (stripQF T))
    (hstat : ctx.fs.stat (translate_path ctx.root (stripQF T)) = Entry.file b true m)
    (hslash : ¬ (translate_path ctx.root (stripQF T)).getLast? = some '/') :
    (do_GET ctx T).map Response.status = some 200 ∧
    (do_GET ctx T).map Response.body = some b := by
  have hp := urlparse_path_origin T hT0 hT1 hT2 hT3
  have hnd : ctx.fs.os_isdir (translate_path ctx.root (stripQF T)) = false :=
    os_isdir_false _ _ (by rw [hstat]; simp)
  have hmode : resolve_mode ctx.fs ctx.root (stripQF T) = .directFile :=
    resolve_mode_direct _ _ _ (os_exists_true _ _ (by rw [hstat]; simp)) hnd
  have htr : translate_path ctx.root T = translate_path ctx.root (stripQF T) :=
    (translate_path_stripQF ctx.root T).symm
  rw [do_GET_direct ctx T (stripQF T) hp hmode,
    base_do_nondir ctx T false (by rw [htr]; exact hnd), htr,
    finishFile_file ctx _ b m hstat hslash]
  exact ⟨rfl, rfl⟩

/-- Filesystem for the C1 witness. -/
def wFs1 : FS :=
  ⟨fun p => if p = strOf (r"/r/app.js") then Entry.file [9] true 3 else Entry.absent⟩

/-- Context for the C1 witness. -/
def wCtx1 : Ctx :=
  { root := strOf (r"/r"), fs := wFs1, guessType := fun _ => [], fmtDate := fun _ => []
    serverHdr := [], dateHdr := [], errorPage := fun _ => [], listingPage := fun _ => []
    listingCtype := [] }

/-- Witness for C1 (amended) at `GET /app.js`. -/
theorem claim_C1_witness :
    (do_GET wCtx1 (strOf (r"/app.js"))).map Response.status = some 200 ∧
    (do_GET wCtx1 (strOf (r"/app.js"))).map Response.body = some [9] :=
  claim_C1_amended wCtx1 (strOf (r"/app.js")) [9] 3 (by decide) (by decide) (by decide)
    (by decide) (by decide) (by decide)

/-- C2: for every request whose parsed path resolves neither to an existing
non-directory entry nor to a directory containing an `index.html` (i.e.
the resolver falls through to Fallback mode), while the root fallback
document `index.html` exists as a readable regular file at the content
root, the GET response is a 200 — a success status, not a client error —
whose body equals the fallback document's bytes. -/
theorem claim_C2_fallback_serves_root_index (ctx : Ctx) (T P : Str) (b : List Nat) (m : Nat)
    (hp : urlparse_path T = some P)
    (hm : resolve_mode ctx.fs ctx.root P = .fallback)
    (hidx : ctx.fs.stat (os_path_join ctx.root indexHtmlStr) = Entry.file b true m) :
    (do_GET ctx T).map Response.status = some 200 ∧
    (do_GET ctx T).map Response.body = some b := by
  have htr := translate_index_html ctx.root
  have hnd : ctx.fs.os_isdir (os_path_join ctx.root indexHtmlStr) = false :=
    os_isdir_false _ _ (by rw [hidx]; simp)
  rw [do_GET_fallback ctx T P hp hm,
    base_do_nondir ctx _ false (by rw [htr]; exact hnd), htr,
    finishFile_file ctx _ b m hidx (by rw [os_path_join_getLast_index]; decide)]
  exact ⟨rfl, rfl⟩

/-- Filesystem for the C2 witness: only `/r/index.html` exists. -/
def wFs2 : FS :=
  ⟨fun p => if p = strOf (r"/r/index.html") then Entry.file [72] true 1 else Entry.absent⟩

/-- Context for the C2 witness. -/
def wCtx2 : Ctx :=
  { root := strOf (r"/r"), fs := wFs2, guessType := fun _ => [], fmtDate := fun _ => []
    serverHdr := [], dateHdr := [], errorPage := fun _ => [], listingPage := fun _ => []
    listingCtype := [] }

/-- Witness for C2 at `GET /dashboard/settings`. -/
theorem claim_C2_witness :
    (do_GET wCtx2 (strOf (r"/dashboard/settings"))).map Response.status = some 200 ∧
    (do_GET wCtx2 (strOf (r"/dashboard/settings"))).map Response.body = some [72] :=
  claim_C2_fallback_serves_root_index wCtx2 (strOf (r"/dashboard/settings"))
    (strOf (r"/dashboard/settings")) [72] 1 (by decide) (by decide) (by decide)

/-- C3: for every request whose parsed path maps to a directory containing
an `index.html` that is a readable regular file, the GET response is a 200
whose body equals that index document's bytes.  The parsed path need not
end in a slash: the handler appends one internally before `index.html`,
and no external 301 redirect is issued (the status is 200). -/
theorem claim_C3_directory_index (ctx : Ctx) (T P : Str) (b : List Nat) (m : Nat)
    (hroot1 : ctx.root ≠ []) (hroot2 : ctx.root.getLast? ≠ some '/')
    (hp : urlparse_path T = some P)
    (hdir : ctx.fs.stat (translate_path ctx.root P) = Entry.dir)
    (hidx : ctx.fs.stat (os_path_join (translate_path ctx.root P) indexHtmlStr) =
      Entry.file b true m) :
    (do_GET ctx T).map Response.status = some 200 ∧
    (do_GET ctx T).map Response.body = some b := by
  obtain ⟨hq, hh⟩ := urlparse_path_no_qf hp
  have hm := resolve_mode_dirIndex ctx.fs ctx.root P (by simp [FS.os_isdir, hdir])
    (os_exists_true _ _ (by rw [hidx]; simp))
  have htr := translate_mkIndexPath ctx.root P hq hh hroot1 hroot2
  have hnd : ctx.fs.os_isdir (os_path_join (translate_path ctx.root P) indexHtmlStr) = false :=
    os_isdir_false _ _ (by rw [hidx]; simp)
  rw [do_GET_dirIndex ctx T P hp hm,
    base_do_nondir ctx _ false (by rw [htr]; exact hnd), htr,
    finishFile_file ctx _ b m hidx (by rw [os_path_join_getLast_index]; decide)]
  exact ⟨rfl, rfl⟩

/-- Filesystem for the C3 witness: `/r/docs` is a directory whose
`index.html` holds byte 68. -/
def wFs3 : FS :=
  ⟨fun p =>
    if p = strOf (r"/r/docs") then Entry.dir
    else if p = strOf (r"/r/docs/index.html") then Entry.file [68] true 2
    else Entry.absent⟩

/-- Context for the C3 witness. -/
def wCtx3 : Ctx :=
  { root := strOf (r"/r"), fs := wFs3, guessType := fun _ => [], fmtDate := fun _ => []
    serverHdr := [], dateHdr := [], errorPage := fun _ => [], listingPage := fun _ => []
    listingCtype := [] }

/-- Witness for C3 at `GET /docs` (no trailing slash). -/
theorem claim_C3_witness :
    (do_GET wCtx3 (strOf (r"/docs"))).map Response.status = some 200 ∧
    (do_GET wCtx3 (strOf (r"/docs"))).map Response.body = some [68] :=
  claim_C3_directory_index wCtx3 (strOf (r"/docs")) (strOf (r"/docs")) [68] 2
    (by decide) (by decide) (by decide) (by decide) (by decide)

/-- C4: for every request, whatever filesystem path the handler opens and
serves content from (the ghost `srcPath` of the response) lies within the
configured content root, and the path the resolver maps the parsed request
path to is within the root as well: `translate_path` only ever descends
from the root through plain path components, so directory-traversal
sequences such as `../../etc/passwd` never escape it. -/
theorem claim_C4_traversal_confined (ctx : Ctx) (T : Str) (resp : Response)
    (hroot1 : ctx.root ≠ []) (hroot2 : ctx.root.getLast? ≠ some '/')
    (hresp : do_GET ctx T = some resp) :
    (∀ q, resp.srcPath = some q → withinRoot ctx.root q) ∧
    (∀ P, urlparse_path T = some P → withinRoot ctx.root (translate_path ctx.root P)) :=
  ⟨fun q hq => do_GET_srcPath ctx T resp q hroot1 hroot2 hresp hq,
   fun P _ => translate_path_withinRoot ctx.root P⟩

/-- Filesystem for the C4 witness: only the fallback document exists. -/
def wFs4 : FS :=
  ⟨fun p => if p = strOf (r"/r/index.html") then Entry.file [72] true 1 else Entry.absent⟩

/-- Context for the C4 witness. -/
def wCtx4 : Ctx :=
  { root := strOf (r"/r"), fs := wFs4, guessType := fun _ => [], fmtDate := fun _ => []
    serverHdr := [], dateHdr := [], errorPage := fun _ => [], listingPage := fun _ => []
    listingCtype := [] }

/-- The response the model computes for `GET /../../etc/passwd` in the C4
witness context. -/
def w4resp : Response :=
  (do_GET wCtx4 (strOf (r"/../../etc/passwd"))).getD ⟨0, [], [], none⟩

/-- Witness for C4 at `GET /../../etc/passwd`: the file actually opened is
`/r/etc...` — in fact the fallback `/r/index.html` — and it is within `/r`. -/
theorem claim_C4_witness :
    withinRoot (strOf (r"/r")) (strOf (r"/r/index.html")) :=
  (claim_C4_traversal_confined wCtx4 (strOf (r"/../../etc/passwd")) w4resp
    (by decide) (by decide) rfl).1 (strOf (r"/r/index.html")) (by decide)

/-- C5: for every request target, the HEAD response is obtained from the
GET response by the same three-step resolution with the body removed: same
status, identical headers, empty body (and when GET raises with no
response, so does HEAD). -/
theorem claim_C5_head_mirrors_get (ctx : Ctx) (T : Str) :
    do_HEAD ctx T = (do_GET ctx T).map (fun x => { x with body := [] }) :=
  do_HEAD_eq_do_GET ctx T

/-- C6: for every request that falls through to Fallback mode while the
root `index.html` is absent, the server still answers the request — the
handler produces a response rather than raising, so the serving loop
continues — and that response is a 404 not-found error. -/
theorem claim_C6_missing_fallback_404 (ctx : Ctx) (T P : Str)
    (hp : urlparse_path T = some P)
    (hm : resolve_mode ctx.fs ctx.root P = .fallback)
    (habs : ctx.fs.stat (os_path_join ctx.root indexHtmlStr) = Entry.absent) :
    (do_GET ctx T).map Response.status = some 404 ∧ (do_GET ctx T).isSome = true := by
  have htr := translate_index_html ctx.root
  have hnd : ctx.fs.os_isdir (os_path_join ctx.root indexHtmlStr) = false :=
    os_isdir_false _ _ (by rw [habs]; simp)
  rw [do_GET_fallback ctx T P hp hm,
    base_do_nondir ctx _ false (by rw [htr]; exact hnd), htr,
    finishFile_err ctx _ (by unfold FS.openFile; rw [habs])]
  exact ⟨rfl, rfl⟩

/-- Context for the C6 witness: an entirely empty content root. -/
def wCtx6 : Ctx :=
  { root := strOf (r"/r"), fs := ⟨fun _ => Entry.absent⟩, guessType := fun _ => []
    fmtDate := fun _ => [], serverHdr := [], dateHdr := [], errorPage := fun _ => [0]
    listingPage := fun _ => [], listingCtype := [] }

/-- Witness for C6 at `GET /unknown`. -/
theorem claim_C6_witness :
    (do_GET wCtx6 (strOf (r"/unknown"))).map Response.status = some 404 ∧
    (do_GET wCtx6 (strOf (r"/unknown"))).isSome = true :=
  claim_C6_missing_fallback_404 wCtx6 (strOf (r"/unknown")) (strOf (r"/unknown"))
    (by decide) (by decide) (by decide)

/-- Filesystem for the C7 counterexample: `/r/secret.txt` exists but is not
readable (permission denied on open). -/
def cexFs7 : FS :=
  ⟨fun p => if p = strOf (r"/r/secret.txt") then Entry.file [1, 2] false 0 else Entry.absent⟩

/-- Context for the C7 counterexample. -/
def cexCtx7 : Ctx :=
  { root := strOf (r"/r"), fs := cexFs7, guessType := fun _ => [], fmtDate := fun _ => []
    serverHdr := [], dateHdr := [], errorPage := fun _ => [], listingPage := fun _ => []
    listingCtype := [] }

/-- C7 (counterexample): a permission-denied open of the existing file
`/r/secret.txt` yields a 404 response — a client error, not the
server-error (5xx) response the claim asserts: the base handler maps every
`OSError` from `open`, including `PermissionError`, to `404 File not
found`. -/
theorem claim_C7_counterexample :
    cexFs7.stat (strOf (r"/r/secret.txt")) = Entry.file [1, 2] false 0 ∧
    (do_GET cexCtx7 (strOf (r"/secret.txt"))).map Response.status = some 404 ∧
    ¬ (500 ≤ 404 ∧ 404 < 600) := by
  refine ⟨rfl, rfl, by decide⟩

/-- C7 (amended): for every origin-form request on which opening the
resolved existing file fails for a reason other than absence (modelled by
an unreadable regular file), the server responds to the client with a 404
not-found error — a client-error status, not a 5xx — without retrying, and
a response is produced so the serving loop continues. -/
theorem claim_C7_amended (ctx : Ctx) (T : Str) (b : List Nat) (m : Nat)
    (hT0 : T.head? = some '/')
    (hT1 : (T.drop 1).head? ≠ some '/')
    (hT2 : ∀ c ∈ T, ¬(c = '\t' ∨ c = '\r' ∨ c = '\n'))
    (hT3 : ';' ∉ lastSlashSeg (stripQF T))
    (hstat : ctx.fs.stat (translate_path ctx.root (stripQF T)) = Entry.file b false m) :
    (do_GET ctx T).map Response.status = some 404 ∧ (do_GET ctx T).isSome = true := by
  have hp := urlparse_path_origin T hT0 hT1 hT2 hT3
  have hnd : ctx.fs.os_isdir (translate_path ctx.root (stripQF T)) = false :=
    os_isdir_false _ _ (by rw [hstat]; simp)
  have hmode : resolve_mode ctx.fs ctx.root (stripQF T) = .directFile :=
    resolve_mode_direct _ _ _ (os_exists_true _ _ (by rw [hstat]; simp)) hnd
  have htr : translate_path ctx.root T = translate_path ctx.root (stripQF T) :=
    (translate_path_stripQF ctx.root T).symm
  rw [do_GET_direct ctx T (stripQF T) hp hmode,
    base_do_nondir ctx T false (by rw [htr]; exact hnd), htr,
    finishFile_err ctx _ (by unfold FS.openFile; rw [hstat])]
  exact ⟨rfl, rfl⟩

/-- Witness for C7 (amended) at `GET /secret.txt` against an unreadable
file (reusing the counterexample's filesystem shape in a fresh context). -/
def wCtx7 : Ctx :=
  { root := strOf (r"/r")
    fs := ⟨fun p => if p = strOf (r"/r/x.bin") then Entry.file [5] false 4 else Entry.absent⟩
    guessType := fun _ => [], fmtDate := fun _ => [], serverHdr := [], dateHdr := []
    errorPage := fun _ => [], listingPage := fun _ => [], listingCtype := [] }

/-- Witness for C7 (amended). -/
theorem claim_C7_witness :
    (do_GET wCtx7 (strOf (r"/x.bin"))).map Response.status = some 404 ∧
    (do_GET wCtx7 (strOf (r"/x.bin"))).isSome = true :=
  claim_C7_amended wCtx7 (strOf (r"/x.bin")) [5] 4 (by decide) (by decide) (by decide)
    (by decide) (by decide)

/-- Filesystem for the C8 counterexample: `/r/a` is a regular file and
`/r/a;d` a directory. -/
def cexFs8 : FS :=
  ⟨fun p =>
    if p = strOf (r"/r/a") then Entry.file [7] true 0
    else if p = strOf (r"/r/a;d") then Entry.dir
    else Entry.absent⟩

/-- Context for the C8 counterexample. -/
def cexCtx8 : Ctx :=
  { root := strOf (r"/r"), fs := cexFs8, guessType := fun _ => [], fmtDate := fun _ => []
    serverHdr := [], dateHdr := [], errorPage := fun _ => [], listingPage := fun _ => []
    listingCtype := [] }

/-- C8 (counterexample): the targets `/a;d?q` and `/a;d` have the same
parsed path component (`/a`, after `urlparse` strips the `;d` parameters)
and differ only in the query string, yet the server's responses differ:
both are 301 redirects, but the `Location` header preserves the query
(`/a;d/?q` versus `/a;d/`), so the query does influence the response. -/
theorem claim_C8_counterexample :
    urlparse_path (strOf (r"/a;d?q")) = urlparse_path (strOf (r"/a;d")) ∧
    ¬ do_GET cexCtx8 (strOf (r"/a;d?q")) = do_GET cexCtx8 (strOf (r"/a;d")) := by
  refine ⟨rfl, by decide⟩

/-- C8 (amended): for every origin-form path `P` (starting with `/` but
not `//`, free of tab/CR/LF, with no `;` in its final segment and itself
free of `?` and `#`), attaching any query/fragment suffixes `s1`, `s2`
(each empty or starting with `?` or `#`) yields the same parsed path, the
same GET response and the same HEAD response: the query string and
fragment are stripped before resolution and never influence the outcome. -/
theorem claim_C8_amended (ctx : Ctx) (P s1 s2 : Str)
    (h0 : P.head? = some '/')
    (h1 : (P.drop 1).head? ≠ some '/')
    (h2 : ∀ c ∈ P, ¬(c = '\t' ∨ c = '\r' ∨ c = '\n'))
    (hq : '?' ∉ P) (hh : '#' ∉ P)
    (h3 : ';' ∉ lastSlashSeg P)
    (hs1 : qfSuffix s1) (hs2 : qfSuffix s2) :
    urlparse_path (P ++ s1) = urlparse_path (P ++ s2) ∧
    do_GET ctx (P ++ s1) = do_GET ctx (P ++ s2) ∧
    do_HEAD ctx (P ++ s1) = do_HEAD ctx (P ++ s2) :=
  qf_suffix_same_response ctx P s1 s2 h0 h1 h2 hq hh h3 hs1 hs2

/-- Context for the C8 witness. -/
def wCtx8 : Ctx :=
  { root := strOf (r"/r")
    fs := ⟨fun p => if p = strOf (r"/r/app.js") then Entry.file [3] true 0 else Entry.absent⟩
    guessType := fun _ => [], fmtDate := fun _ => [], serverHdr := [], dateHdr := []
    errorPage := fun _ => [], listingPage := fun _ => [], listingCtype := [] }

/-- Witness for C8 (amended): `/app.js?v=1` and `/app.js#frag` produce the
same responses as each other. -/
theorem claim_C8_witness :
    urlparse_path (strOf (r"/app.js") ++ strOf (r"?v=1")) =
      urlparse_path (strOf (r"/app.js") ++ strOf (r"#frag")) ∧
    do_GET wCtx8 (strOf (r"/app.js") ++ strOf (r"?v=1")) =
      do_GET wCtx8 (strOf (r"/app.js") ++ strOf (r"#frag")) ∧
    do_HEAD wCtx8 (strOf (r"/app.js") ++ strOf (r"?v=1")) =
      do_HEAD wCtx8 (strOf (r"/app.js") ++ strOf (r"#frag")) :=
  claim_C8_amended wCtx8 (strOf (r"/app.js")) (strOf (r"?v=1")) (strOf (r"#frag"))
    (by decide) (by decide) (by decide) (by decide) (by decide) (by decide)
    (Or.inr (Or.inl (by decide))) (Or.inr (Or.inr (by decide)))

/-- Filesystem for the C9 witness and statement contexts: `/r/fifo` exists
but is neither a regular file nor a directory. -/
def wFs9 : FS :=
  ⟨fun p => if p = strOf (r"/r/fifo") then Entry.special none else Entry.absent⟩

/-- Context for the C9 witness. -/
def wCtx9 : Ctx :=
  { root := strOf (r"/r"), fs := wFs9, guessType := fun _ => [], fmtDate := fun _ => []
    serverHdr := [], dateHdr := [], errorPage := fun _ => [], listingPage := fun _ => []
    listingCtype := [] }

/-- C9: for every request whose parsed path maps to an existing filesystem
entry that is neither a directory nor a regular file (FIFO, socket, device
node), the resolver takes the direct-serve branch — the dispatch condition
is `exists and not isdir`, not `isfile` — and the handler attempts to serve
that entry via the base handler rather than falling back to `index.html`. -/
theorem claim_C9_special_entry_direct (ctx : Ctx) (T P : Str)
    (o : Option (List Nat × Nat))
    (hp : urlparse_path T = some P)
    (hstat : ctx.fs.stat (translate_path ctx.root P) = Entry.special o) :
    resolve_mode ctx.fs ctx.root P = .directFile ∧
    do_GET ctx T = base_do ctx T false := by
  have hm := resolve_mode_direct ctx.fs ctx.root P
    (os_exists_true _ _ (by rw [hstat]; simp)) (os_isdir_false _ _ (by rw [hstat]; simp))
  exact ⟨hm, do_GET_direct ctx T P hp hm⟩

/-- Witness for C9 at `GET /fifo`. -/
theorem claim_C9_witness :
    resolve_mode wFs9 (strOf (r"/r")) (strOf (r"/fifo")) = Mode.directFile ∧
    do_GET wCtx9 (strOf (r"/fifo")) = base_do wCtx9 (strOf (r"/fifo")) false :=
  claim_C9_special_entry_direct wCtx9 (strOf (r"/fifo")) (strOf (r"/fifo")) none
    (by decide) (by decide)

/-- C10: if the environment variable `DEV_SERVER_PORT` is set to a string
that `int()` rejects, the module-level initialisation fails (the
`ValueError` raised on line 15 aborts the import), so no server
configuration is produced: the process exits before any socket is created
or bound and before any request is served. -/
theorem claim_C10_invalid_port_aborts (env : Str → Option Str) (s : Str)
    (h1 : env devServerPortVar = some s) (h2 : pyIntStr s = none) :
    module_init env = none := by
  unfold module_init
  rw [h1, Option.getD_some, h2]

/-- Witness for C10 with `DEV_SERVER_PORT=abc`. -/
theorem claim_C10_witness :
    module_init (fun k => if k = devServerPortVar then some (strOf (r"abc")) else none) =
      none :=
  claim_C10_invalid_port_aborts _ (strOf (r"abc")) (by decide) (by decide)
